import Mathlib

/-!
Shallow embedding of the bookmark-restructuring engine of `bookmark-man`
(`src/lib/services/BookmarkRestructuringService.js`,
`src/lib/services/BookmarkOperationExecutor.js`,
`src/lib/services/ChromeBookmarkTransactionManager.js`), together with
theorems settling the specification claims about it.

JavaScript strings are modelled by `String` (lists of characters where
character-level scanning is needed), JS `Map` by an association list with
in-place overwrite on `set`, JS `Set` by a duplicate-free append list, and
the engine's asynchronous failure channel by `Except String`.
-/

namespace BookmarkMan

/-! ## JS-style helpers -/

/-- Truthiness of an optional JS string (absent or empty string is falsy). -/
def truthy : Option String → Bool
  | none => false
  | some s => !s.isEmpty

/-- JS `Map.prototype.set`: overwrite the value at an existing key in place,
otherwise append the binding at the end (insertion order is preserved). -/
def jsMapSet {β : Type} : List (String × β) → String → β → List (String × β)
  | [], k, v => [(k, v)]
  | (k', v') :: rest, k, v =>
    if k' = k then (k, v) :: rest else (k', v') :: jsMapSet rest k v

/-- JS `Map.prototype.get` (first binding wins; keys are unique under `jsMapSet`). -/
def jsMapGet {β : Type} (m : List (String × β)) (k : String) : Option β :=
  (m.find? (fun kv => kv.1 = k)).map (fun kv => kv.2)

/-- JS `Set.prototype.add`: append if absent. -/
def jsSetAdd (s : List String) (x : String) : List String :=
  if s.contains x then s else s ++ [x]

theorem jsMapGet_set {β : Type} (m : List (String × β)) (k k' : String) (v : β) :
    jsMapGet (jsMapSet m k v) k' = if k = k' then some v else jsMapGet m k' := by
  induction m with
  | nil =>
    by_cases h : k = k' <;> simp [jsMapSet, jsMapGet, List.find?, h]
  | cons kv rest ih =>
    obtain ⟨k₀, v₀⟩ := kv
    by_cases h0 : k₀ = k
    · subst h0
      by_cases h : k₀ = k' <;> simp [jsMapSet, jsMapGet, List.find?, h]
    · by_cases h : k₀ = k'
      · subst h
        have hkk : ¬ k = k₀ := fun hc => h0 hc.symm
        simp [jsMapSet, jsMapGet, List.find?, h0, hkk]
      · simp only [jsMapSet, if_neg h0]
        simp only [jsMapGet, List.find?] at ih ⊢
        simp [h, ih]

/-! ## Character-level string scanning (the parser works on raw lines) -/

/-- Split a character list on a separator character (JS `String.split` with a
single-character separator). -/
def splitOnChar (c : Char) : List Char → List (List Char)
  | [] => [[]]
  | x :: xs =>
    let r := splitOnChar c xs
    if x = c then [] :: r
    else
      match r with
      | [] => [[x]]
      | h :: t => (x :: h) :: t

/-- JS `String.prototype.trim` on a character list. -/
def jsTrim (l : List Char) : List Char :=
  ((l.dropWhile Char.isWhitespace).reverse.dropWhile Char.isWhitespace).reverse

/-- Substring containment, JS `String.prototype.includes`. -/
def containsSub (sub : List Char) : List Char → Bool
  | [] => sub.isEmpty
  | x :: rest => sub.isPrefixOf (x :: rest) || containsSub sub rest

/-- One step of JS `String.prototype.split(sep)` with a string separator,
fuelled (the fuel is at least the length of the list, which suffices since
every step consumes at least one character). -/
def splitOnSubF (sep : List Char) : Nat → List Char → List (List Char)
  | 0, l => [l]
  | _ + 1, [] => [[]]
  | fuel + 1, x :: rest =>
    if sep.isPrefixOf (x :: rest) ∧ sep ≠ [] then
      [] :: splitOnSubF sep fuel ((x :: rest).drop sep.length)
    else
      match splitOnSubF sep fuel rest with
      | [] => [[x]]
      | h :: t => (x :: h) :: t

/-- JS `String.prototype.split` with a string separator. -/
def jsSplitOnSub (sep l : List Char) : List (List Char) :=
  splitOnSubF sep (l.length + 1) l

/-- The regex `/(https?:\/\/[^\s]+)/` of `parseStructureText`: earliest match
of a scheme token followed by a maximal nonempty run of non-whitespace. -/
def findUrl : List Char → Option (List Char)
  | [] => none
  | x :: rest =>
    if ("http://".data).isPrefixOf (x :: rest) then
      let run := ((x :: rest).drop 7).takeWhile (fun c => !c.isWhitespace)
      if run.isEmpty then findUrl rest else some ("http://".data ++ run)
    else if ("https://".data).isPrefixOf (x :: rest) then
      let run := ((x :: rest).drop 8).takeWhile (fun c => !c.isWhitespace)
      if run.isEmpty then findUrl rest else some ("https://".data ++ run)
    else findUrl rest

/-! ## Structure Parser (`BookmarkRestructuringService.parseStructureText`) -/

/-- Target-structure node produced by the parser and consumed by the planner.
The source builds duck-typed objects `{type, title, url?, children?}`; here
`children` is `[]` for bookmarks (the source leaves the field absent, which no
consumer distinguishes from an empty array). -/
inductive SNode where
  | mk (kind : String) (title : String) (url : Option String) (children : List SNode)

mutual

def decEqSNode : (a b : SNode) → Decidable (a = b)
  | .mk k1 t1 u1 c1, .mk k2 t2 u2 c2 =>
    if hk : k1 = k2 then
      if ht : t1 = t2 then
        if hu : u1 = u2 then
          match decEqSNodeList c1 c2 with
          | isTrue hc => isTrue (by rw [hk, ht, hu, hc])
          | isFalse hc => isFalse (by intro h; injection h; contradiction)
        else isFalse (by intro h; injection h; contradiction)
      else isFalse (by intro h; injection h; contradiction)
    else isFalse (by intro h; injection h; contradiction)

def decEqSNodeList : (a b : List SNode) → Decidable (a = b)
  | [], [] => isTrue rfl
  | [], _ :: _ => isFalse (by intro h; exact List.noConfusion h)
  | _ :: _, [] => isFalse (by intro h; exact List.noConfusion h)
  | x :: xs, y :: ys =>
    match decEqSNode x y, decEqSNodeList xs ys with
    | isTrue h1, isTrue h2 => isTrue (by rw [h1, h2])
    | isFalse h1, _ => isFalse (by intro h; injection h; contradiction)
    | _, isFalse h2 => isFalse (by intro h; injection h; contradiction)

end

instance : DecidableEq SNode := decEqSNode

def SNode.kind : SNode → String
  | .mk k _ _ _ => k

def SNode.title : SNode → String
  | .mk _ t _ _ => t

def SNode.url : SNode → Option String
  | .mk _ _ u _ => u

def SNode.children : SNode → List SNode
  | .mk _ _ _ c => c

/-- A pending folder on the parser's ancestry stack: its indentation level and
the children collected so far. -/
structure PFrame where
  level : Int
  title : String
  children : List SNode

/-- Closing a stack frame yields the folder node (folders reach their parent's
`children` only carrying everything parsed while they were on the stack). -/
def closeFrame (f : PFrame) : SNode :=
  .mk "folder" f.title none f.children

def appendChild (f : PFrame) (n : SNode) : PFrame :=
  { f with children := f.children ++ [n] }

/-- `while (stack.length > 1 && stack[stack.length-1].level >= level) stack.pop()`:
pop frames whose level is not below the current line's, merging each closed
folder into the frame below. The stack is carried as (top, rest) so the
bottom (root) frame is never popped. -/
def popFrames : PFrame → List PFrame → Int → PFrame × List PFrame
  | f, [], _ => (f, [])
  | f, g :: rest, level =>
    if f.level ≥ level then popFrames (appendChild g (closeFrame f)) rest level
    else (f, g :: rest)

/-- Indentation level of a raw line: `Math.floor(leadingWhitespace / 2)`. -/
def lineLevel (line : List Char) : Int :=
  (((line.takeWhile Char.isWhitespace).length) / 2 : Nat)

/-- Processing of one (already non-blank) line of `parseStructureText`. -/
def parseLine (st : PFrame × List PFrame) (line : List Char) : PFrame × List PFrame :=
  let trimmed := jsTrim line
  if ("//".data).isPrefixOf trimmed ∨ ("#".data).isPrefixOf trimmed then st
  else
    let level := lineLevel line
    let isFolder := !containsSub ("http://".data) trimmed
        && !containsSub ("https://".data) trimmed
    let (top, rest) := popFrames st.1 st.2 level
    if isFolder then
      -- the folder node is materialized when its frame is popped
      (⟨level, ⟨trimmed⟩, []⟩, top :: rest)
    else
      let title := jsTrim ((jsSplitOnSub (" - ".data) trimmed).headD [])
      let url : Option String :=
        match findUrl trimmed with
        | some u => some ⟨u⟩
        | none =>
          let parts := jsSplitOnSub (" - ".data) trimmed
          if parts.length > 1 then some ⟨jsTrim (parts.getD 1 [])⟩ else none
      (appendChild top (.mk "bookmark" ⟨title⟩ url []), rest)

/-- Fold the remaining stack into the root frame at end of input. -/
def collapseStack : PFrame → List PFrame → PFrame
  | f, [] => f
  | f, g :: rest => collapseStack (appendChild g (closeFrame f)) rest

/-- `BookmarkRestructuringService.parseStructureText`. -/
def parseStructureText (text : String) : List SNode :=
  if text.isEmpty then []
  else
    let lines := (splitOnChar '\n' text.data).filter (fun l => (jsTrim l).length > 0)
    let st := lines.foldl parseLine (⟨-1, "Root", []⟩, [])
    (collapseStack st.1 st.2).children

/-! ## Claims C4 and C5 (parser) -/

/-- C4: the claim says a URL token containing embedded spaces is captured in
full up to end of line. The code's regex `[^\s]+` stops at the first
whitespace: on the repository's own test input the parsed url is
`https://example.com/path`, not the full substring. -/
theorem parse_url_truncated_at_first_space :
    (parseStructureText
        "Bookmark with space in URL https://example.com/path with spaces").map SNode.url
      = [some "https://example.com/path"]
    ∧ ("https://example.com/path" : String) ≠ "https://example.com/path with spaces" := by
  constructor
  · decide
  · decide

/-- C5: the claim (and the repository's test suite) classifies a line as a
folder exactly when it ends with a trailing `/`, stripped from the title.
The code instead classifies any line without an `http://` or `https://`
substring as a folder and keeps the trailing marker: `Just a title` (no
trailing slash) parses as a folder, and `Search Engines/` keeps the slash
in its title. -/
theorem parse_folder_not_by_trailing_slash :
    parseStructureText "Just a title" = [SNode.mk "folder" "Just a title" none []]
    ∧ parseStructureText "Search Engines/"
        = [SNode.mk "folder" "Search Engines/" none []] := by
  constructor
  · decide
  · decide

/-! ## JS `Array.prototype.sort`

The engines this extension runs on (V8) sort short arrays by binary
insertion: each element is inserted into the sorted prefix at the position
found by a binary search that moves left exactly when
`comparator(pivot, a[mid]) < 0`. For a consistent comparator this is a
stable sort; the model keeps the exact search so that inconsistent
comparators behave as they do in the engine. -/

/-- Insert an element at a position (append when the position is past the end). -/
def insertAt {α : Type} (n : Nat) (x : α) : List α → List α
  | [] => [x]
  | y :: ys =>
    match n with
    | 0 => x :: y :: ys
    | m + 1 => y :: insertAt m x ys

/-- The binary search of V8's insertion sort, fuelled (the interval shrinks at
every step, so fuel `right - left + 1` suffices). `p i` is
`comparator(pivot, a[i]) < 0`. -/
def binPosGo (p : Nat → Bool) : Nat → Nat → Nat → Nat
  | 0, left, _ => left
  | fuel + 1, left, right =>
    if left < right then
      let mid := (left + right) / 2
      if p mid then binPosGo p fuel left mid else binPosGo p fuel (mid + 1) right
    else left

/-- Insertion position of `pivot` into the sorted prefix `acc`. -/
def binInsertPos {α : Type} (cmp : α → α → Int) (pivot : α) (acc : List α) : Nat :=
  binPosGo (fun i => decide (cmp pivot (acc.getD i pivot) < 0)) (acc.length + 1) 0 acc.length

/-- One insertion step of the sort. -/
def jsSortStep {α : Type} (cmp : α → α → Int) (acc : List α) (x : α) : List α :=
  insertAt (binInsertPos cmp x acc) x acc

/-- JS `Array.prototype.sort(cmp)` as binary insertion sort. -/
def jsSortBy {α : Type} (cmp : α → α → Int) (l : List α) : List α :=
  l.foldl (jsSortStep cmp) []

theorem insertAt_eq_take_drop {α : Type} (x : α) :
    ∀ (l : List α) (n : Nat), insertAt n x l = l.take n ++ x :: l.drop n := by
  intro l
  induction l with
  | nil => intro n; cases n <;> simp [insertAt]
  | cons y ys ih =>
    intro n
    cases n with
    | zero => simp [insertAt]
    | succ m => simp [insertAt, ih]

theorem insertAt_perm {α : Type} (x : α) (l : List α) (n : Nat) :
    (insertAt n x l).Perm (x :: l) := by
  rw [insertAt_eq_take_drop]
  calc (l.take n ++ x :: l.drop n).Perm (x :: (l.take n ++ l.drop n)) :=
        List.perm_middle
    _ = x :: l := by rw [List.take_append_drop]

theorem jsSortBy_perm {α : Type} (cmp : α → α → Int) (l : List α) :
    (jsSortBy cmp l).Perm l := by
  suffices h : ∀ (l acc : List α),
      (l.foldl (jsSortStep cmp) acc).Perm (acc ++ l) by
    simpa using h l []
  intro l
  induction l with
  | nil => intro acc; simp
  | cons x xs ih =>
    intro acc
    refine ((ih _).trans ?_)
    exact ((insertAt_perm x acc _).append_right xs).trans List.perm_middle.symm

/-- The binary search returns the boundary of any monotone predicate over the
probed interval. -/
theorem binPosGo_boundary (p : Nat → Bool) (b : Nat) :
    ∀ (fuel left right : Nat), left ≤ b → b ≤ right → right - left ≤ fuel →
      (∀ i, left ≤ i → i < b → p i = false) →
      (∀ i, b ≤ i → i < right → p i = true) →
      binPosGo p fuel left right = b := by
  intro fuel
  induction fuel with
  | zero =>
    intro left right h1 h2 h3 _ _
    simp only [binPosGo]
    omega
  | succ fuel ih =>
    intro left right h1 h2 h3 hlo hhi
    simp only [binPosGo]
    by_cases hlr : left < right
    · simp only [if_pos hlr]
      by_cases hp : p ((left + right) / 2)
      · simp only [hp, if_pos]
        have hmid : b ≤ (left + right) / 2 := by
          by_contra hc
          have := hlo ((left + right) / 2) (by omega) (by omega)
          simp [this] at hp
        exact ih left ((left + right) / 2) h1 hmid (by omega) hlo
          (fun i hi1 hi2 => hhi i hi1 (by omega))
      · simp only [hp, if_neg, Bool.false_eq_true, not_false_eq_true]
        have hmid : (left + right) / 2 < b := by
          by_contra hc
          have := hhi ((left + right) / 2) (by omega) (by omega)
          simp [this] at hp
        exact ih ((left + right) / 2 + 1) right (by omega) h2 (by omega)
          (fun i hi1 hi2 => hlo i (by omega) hi2) hhi
    · simp only [if_neg hlr]
      omega

/-! ## Operations (`BookmarkOperationExecutor`) -/

/-- The `folder` field the planner puts on its create operations. -/
structure FolderField where
  title : String
  parentId : String
deriving DecidableEq

/-- The `data` field the executor expects on create operations. -/
structure OpData where
  title : Option String
  parentId : Option String
  url : Option String
deriving DecidableEq

/-- A move destination `{parentId, index}`. -/
structure Dest where
  parentId : Option String
  index : Option Int
deriving DecidableEq

/-- A duck-typed operation object: a bag of optional fields distinguished by
its `type` string. -/
structure Operation where
  type : Option String
  data : Option OpData
  folder : Option FolderField
  tempId : Option String
  id : Option String
  destination : Option Dest
deriving DecidableEq

/-- The comparator of `BookmarkOperationExecutor.execute`'s preprocessing
sort: `create` before `move`, everything else ties. -/
def cmpOp (a b : Operation) : Int :=
  if a.type = some "create" ∧ b.type = some "move" then -1
  else if a.type = some "move" ∧ b.type = some "create" then 1
  else 0

/-- Every `create` operation precedes every `move` operation. -/
def createsPrecedeMoves : List Operation → Bool
  | [] => true
  | op :: rest =>
    (if op.type == some "move" then rest.all (fun o => !(o.type == some "create")) else true)
    && createsPrecedeMoves rest

/-- A concrete move operation. -/
def cexMove : Operation := ⟨some "move", none, none, none, some "9", some ⟨some "1", some 0⟩⟩

/-- A concrete remove operation. -/
def cexRemove : Operation := ⟨some "remove", none, none, none, some "8", none⟩

/-- A concrete executor-shaped create operation. -/
def cexCreate : Operation :=
  ⟨some "create", some ⟨some "T", some "1", none⟩, none, some "t1", none, none⟩

theorem getD_append_left {α : Type} (l l' : List α) (d : α) (i : Nat) (h : i < l.length) :
    (l ++ l').getD i d = l.getD i d := by
  rw [List.getD_eq_getElem?_getD, List.getD_eq_getElem?_getD, List.getElem?_append, if_pos h]

theorem getD_append_right {α : Type} (l l' : List α) (d : α) (i : Nat) (h : l.length ≤ i) :
    (l ++ l').getD i d = l'.getD (i - l.length) d := by
  rw [List.getD_eq_getElem?_getD, List.getD_eq_getElem?_getD, List.getElem?_append_right h]

theorem getD_mem {α : Type} (l : List α) (d : α) (i : Nat) (h : i < l.length) :
    l.getD i d ∈ l := by
  rw [List.getD_eq_getElem?_getD, List.getElem?_eq_getElem h, Option.getD_some]
  exact List.getElem_mem h

theorem binInsertPos_create (cs ms : List Operation) (pivot : Operation)
    (hc : ∀ x ∈ cs, x.type = some "create") (hm : ∀ x ∈ ms, x.type = some "move")
    (hp : pivot.type = some "create") :
    binInsertPos cmpOp pivot (cs ++ ms) = cs.length := by
  unfold binInsertPos
  apply binPosGo_boundary _ cs.length _ 0 _ (Nat.zero_le _) (by simp) (by simp)
  · intro i _ hi
    have hmem : (cs ++ ms).getD i pivot ∈ cs := by
      rw [getD_append_left _ _ _ _ hi]; exact getD_mem _ _ _ hi
    have := hc _ hmem
    simp only [List.getD, List.get?_eq_getElem?] at this
    simp [cmpOp, this, hp]
  · intro i hi hi2
    have hmem : (cs ++ ms).getD i pivot ∈ ms := by
      rw [getD_append_right _ _ _ _ hi]
      exact getD_mem _ _ _ (by simp at hi2; omega)
    have := hm _ hmem
    simp only [List.getD, List.get?_eq_getElem?] at this
    simp [cmpOp, this, hp]

theorem binInsertPos_move (acc : List Operation) (pivot : Operation)
    (hacc : ∀ x ∈ acc, x.type = some "create" ∨ x.type = some "move")
    (hp : pivot.type = some "move") :
    binInsertPos cmpOp pivot acc = acc.length := by
  unfold binInsertPos
  apply binPosGo_boundary _ acc.length _ 0 _ (Nat.zero_le _) (le_refl _) (by simp)
  · intro i _ hi
    have hmem : acc.getD i pivot ∈ acc := getD_mem _ _ _ hi
    rcases hacc _ hmem with h | h <;>
      · simp only [List.getD, List.get?_eq_getElem?] at h
        simp [cmpOp, h, hp]
  · intro i hi hi2
    omega

theorem jsSort_go_create_move (l : List Operation) :
    ∀ (cs ms : List Operation), (∀ x ∈ cs, x.type = some "create") →
      (∀ x ∈ ms, x.type = some "move") →
      (∀ op ∈ l, op.type = some "create" ∨ op.type = some "move") →
      l.foldl (jsSortStep cmpOp) (cs ++ ms)
        = (cs ++ l.filter (fun op => op.type == some "create"))
          ++ (ms ++ l.filter (fun op => op.type == some "move")) := by
  induction l with
  | nil => intro cs ms _ _ _; simp
  | cons x xs ih =>
    intro cs ms hc hm hl
    have hx := hl x (List.mem_cons_self _ _)
    have hxs : ∀ op ∈ xs, op.type = some "create" ∨ op.type = some "move" :=
      fun op h => hl op (List.mem_cons_of_mem _ h)
    rcases hx with hx | hx
    · have hstep : jsSortStep cmpOp (cs ++ ms) x = (cs ++ [x]) ++ ms := by
        unfold jsSortStep
        rw [binInsertPos_create cs ms x hc hm hx, insertAt_eq_take_drop,
          List.take_left, List.drop_left]
        simp
      have hxnotm : ¬ x.type = some "move" := by rw [hx]; simp
      simp only [List.foldl_cons, hstep]
      rw [ih (cs ++ [x]) ms
        (by intro y hy; rcases List.mem_append.mp hy with h | h
            · exact hc _ h
            · simp at h; subst h; exact hx)
        hm hxs]
      simp [List.filter_cons, hx, hxnotm]
    · have hstep : jsSortStep cmpOp (cs ++ ms) x = cs ++ (ms ++ [x]) := by
        unfold jsSortStep
        rw [binInsertPos_move (cs ++ ms) x
          (by intro y hy; rcases List.mem_append.mp hy with h | h
              · exact Or.inl (hc _ h)
              · exact Or.inr (hm _ h)) hx]
        rw [insertAt_eq_take_drop, List.take_length, List.drop_length]
        simp
      have hxnotc : ¬ x.type = some "create" := by rw [hx]; simp
      simp only [List.foldl_cons, hstep]
      rw [ih cs (ms ++ [x]) hc
        (by intro y hy; rcases List.mem_append.mp hy with h | h
            · exact hm _ h
            · simp at h; subst h; exact hx)
        hxs]
      simp [List.filter_cons, hx, hxnotc]

/-- C2 counterexample: on an operation list containing a `remove`, the
comparator is inconsistent and the engine's sort leaves a `move` in front
of a `create`. -/
theorem jsSort_move_before_create_with_remove :
    createsPrecedeMoves (jsSortBy cmpOp [cexMove, cexRemove, cexCreate]) = false := by
  decide

/-- C2 (amended): for operation lists consisting of `create` and `move`
operations only — the only kinds the planner emits — the executor's
preprocessing sort puts every `create` before every `move` and keeps ties
in their original relative order: the result is exactly the creates in
input order followed by the moves in input order. -/
theorem jsSort_creates_before_moves (l : List Operation)
    (h : ∀ op ∈ l, op.type = some "create" ∨ op.type = some "move") :
    jsSortBy cmpOp l
      = l.filter (fun op => op.type == some "create")
        ++ l.filter (fun op => op.type == some "move") := by
  have := jsSort_go_create_move l [] [] (by simp) (by simp) h
  simpa [jsSortBy] using this

/-- Witness for C2's amended theorem at a concrete create/move list. -/
theorem jsSort_creates_before_moves_witness :
    jsSortBy cmpOp [cexMove, cexCreate]
      = [cexCreate, cexMove] := by
  have h := jsSort_creates_before_moves [cexMove, cexCreate] (by decide)
  simpa using h

/-! ## Operation execution (`BookmarkOperationExecutor.execute`) -/

/-- A create operation as `BookmarkRestructuringService.createMissingFolders`
emits it: `{type:'create', folder:{title,parentId}, tempId}` — note the
payload sits under `folder`, not under `data`. -/
def plannerCreateOp (title parentId tempId : String) : Operation :=
  ⟨some "create", none, some ⟨title, parentId⟩, some tempId, none, none⟩

/-- `BookmarkOperationExecutor.validateOperation`. -/
def validateOperation (op : Operation) : Bool :=
  if !truthy op.type then false
  else if op.type = some "create" then
    match op.data with
    | some d => truthy d.title
    | none => false
  else if op.type = some "move" then
    truthy op.id &&
      (match op.destination with
       | some dst => truthy dst.parentId
       | none => false)
  else if op.type = some "remove" then truthy op.id
  else false

/-- A call to the bookmark repository, as issued by the executor. -/
inductive RepoCall where
  | create (d : OpData)
  | createFolder (d : OpData)
  | move (id : String) (dest : Dest)
  | remove (id : String)
deriving DecidableEq

/-- The repository's responses (the external tree-mutation service): each
call either returns (for creates, the new node's id) or rejects with an
error message. -/
structure RepoEnv where
  create : OpData → Except String String
  createFolder : OpData → Except String String
  move : String → Dest → Except String Unit
  remove : String → Except String Unit

/-- Executor state: the temp-id resolution map, the known folder ids, and
the trace of repository calls issued so far. -/
structure ExecState where
  idMap : List (String × String)
  folderIds : List String
  calls : List RepoCall
deriving DecidableEq

def initExecState : ExecState := ⟨[], ["0", "1", "2", "3"], []⟩

/-- `if (data.parentId && this.idMap.has(data.parentId)) data.parentId = ...get(...)`. -/
def resolveDataParent (m : List (String × String)) (d : OpData) : OpData :=
  if truthy d.parentId then
    match jsMapGet m (d.parentId.getD "") with
    | some rid => { d with parentId := some rid }
    | none => d
  else d

/-- `if (tempId) this.idMap.set(tempId, result.id)`. -/
def recordTemp (st : ExecState) (op : Operation) (rid : String) : ExecState :=
  if truthy op.tempId then { st with idMap := jsMapSet st.idMap (op.tempId.getD "") rid }
  else st

def executeCreateOperation (env : RepoEnv) (st : ExecState) (op : Operation) :
    Except String ExecState :=
  let d := resolveDataParent st.idMap (op.data.getD ⟨none, none, none⟩)
  if truthy d.url then
    match env.create d with
    | .error e => .error e
    | .ok rid => .ok (recordTemp { st with calls := st.calls ++ [.create d] } op rid)
  else
    match env.createFolder d with
    | .error e => .error e
    | .ok rid =>
      .ok (recordTemp
        { st with calls := st.calls ++ [.createFolder d],
                  folderIds := jsSetAdd st.folderIds rid } op rid)

def executeMoveOperation (env : RepoEnv) (st : ExecState) (op : Operation) :
    Except String ExecState :=
  let id := op.id.getD ""
  let realId := match jsMapGet st.idMap id with | some r => r | none => id
  let dst0 := op.destination.getD ⟨none, none⟩
  let dst :=
    if truthy dst0.parentId then
      match jsMapGet st.idMap (dst0.parentId.getD "") with
      | some r => { dst0 with parentId := some r }
      | none => dst0
    else dst0
  match env.move realId dst with
  | .error e => .error e
  | .ok _ => .ok { st with calls := st.calls ++ [.move realId dst] }

def executeRemoveOperation (env : RepoEnv) (st : ExecState) (op : Operation) :
    Except String ExecState :=
  let id := op.id.getD ""
  let realId := match jsMapGet st.idMap id with | some r => r | none => id
  match env.remove realId with
  | .error e => .error e
  | .ok _ => .ok { st with calls := st.calls ++ [.remove realId] }

def execOp (env : RepoEnv) (st : ExecState) (op : Operation) : Except String ExecState :=
  if op.type = some "create" then executeCreateOperation env st op
  else if op.type = some "move" then executeMoveOperation env st op
  else if op.type = some "remove" then executeRemoveOperation env st op
  else .ok st

/-- The sequential loop of `execute`: invalid operations are skipped with a
warning, a failing repository call aborts the run with its error. -/
def execOps (env : RepoEnv) : ExecState → List Operation → Except String ExecState
  | st, [] => .ok st
  | st, op :: rest =>
    if validateOperation op then
      match execOp env st op with
      | .error e => .error e
      | .ok st' => execOps env st' rest
    else execOps env st rest

/-- `BookmarkOperationExecutor.execute`: early return on an empty list, then
the preprocessing sort, then the sequential loop. -/
def execute (env : RepoEnv) (ops : List Operation) : Except String ExecState :=
  if ops.isEmpty then .ok initExecState
  else execOps env initExecState (jsSortBy cmpOp ops)

theorem execOps_skips_invalid (env : RepoEnv) :
    ∀ (ops : List Operation) (st : ExecState),
      (∀ op ∈ ops, validateOperation op = false) → execOps env st ops = .ok st := by
  intro ops
  induction ops with
  | nil => intro st _; rfl
  | cons op rest ih =>
    intro st h
    have hop := h op (List.mem_cons_self _ _)
    simp only [execOps, hop]
    simp only [Bool.false_eq_true, if_false]
    exact ih st (fun o ho => h o (List.mem_cons_of_mem _ ho))

/-- C3: the planner's create operations `{type:'create', folder:{...}, tempId}`
fail the executor's validation (which requires `data.title`), so `execute`
skips every one of them: it issues no repository call and records no
temp-id mapping. -/
theorem planner_creates_are_skipped :
    (∀ title parentId tempId,
        validateOperation (plannerCreateOp title parentId tempId) = false)
    ∧ ∀ (env : RepoEnv) (l : List (String × String × String)),
        execute env (l.map fun x => plannerCreateOp x.1 x.2.1 x.2.2) = .ok initExecState := by
  constructor
  · intro title parentId tempId
    rfl
  · intro env l
    unfold execute
    by_cases hl : (l.map fun x => plannerCreateOp x.1 x.2.1 x.2.2).isEmpty
    · simp [hl]
    · simp only [hl, Bool.false_eq_true, if_false]
      apply execOps_skips_invalid
      intro op hop
      have hmem := (jsSortBy_perm cmpOp _).mem_iff.mp hop
      rcases List.mem_map.mp hmem with ⟨x, _, hx⟩
      rw [← hx]
      rfl

/-! ## Live bookmark tree nodes -/

/-- A node of the live bookmark tree (`chrome.bookmarks` node): id, title,
optional url, optional index, children. As with `SNode`, an absent
`children` field and an empty array are not distinguished by any consumer
modelled here. -/
inductive BNode where
  | mk (id : String) (title : String) (url : Option String) (index : Option Int)
      (children : List BNode)

def BNode.id : BNode → String
  | .mk i _ _ _ _ => i

def BNode.title : BNode → String
  | .mk _ t _ _ _ => t

def BNode.url : BNode → Option String
  | .mk _ _ u _ _ => u

def BNode.index : BNode → Option Int
  | .mk _ _ _ x _ => x

def BNode.children : BNode → List BNode
  | .mk _ _ _ _ c => c

/-- A stored snapshot `{id, name, timestamp, tree}`. -/
structure Snapshot where
  id : String
  name : String
  timestamp : Int
  tree : List BNode

/-! ## Restructuring Orchestrator (`executeRestructure`) -/

/-- `error.message || 'Unknown error'` (errors are modelled by their message). -/
def jsErrMsg (e : String) : String :=
  if e.isEmpty then "Unknown error" else e

/-- The result object `executeRestructure` hands to the UI layer. -/
structure RestructureResult where
  success : Bool
  snapshotId : String
  message : String
  operations : Option (List Operation)
  error : Option String
  rollbackError : Option String

/-- `BookmarkRestructuringService.executeRestructure`, parameterized by the
outcomes of its three awaited collaborator calls: snapshot creation (outside
the try, so its failure propagates), the operation executor's run, and — only
consulted when the run failed — the transaction manager's restore. -/
def executeRestructure (snapRes : Except String Snapshot) (execRes : Except String Unit)
    (restoreRes : Except String Bool) (operations : List Operation) :
    Except String RestructureResult :=
  match snapRes with
  | .error e => .error e
  | .ok snapshot =>
    match execRes with
    | .ok _ =>
      .ok ⟨true, snapshot.id, "Restructuring completed successfully", some operations,
        none, none⟩
    | .error err =>
      match restoreRes with
      | .ok true =>
        .ok ⟨false, snapshot.id, "Restructuring failed and was rolled back automatically",
          none, some (jsErrMsg err), none⟩
      | .ok false =>
        .ok ⟨false, snapshot.id, "Restructuring failed and automatic rollback also failed",
          none, some (jsErrMsg err), none⟩
      | .error rbe =>
        .ok ⟨false, snapshot.id, "Restructuring failed and rollback failed",
          none, some (jsErrMsg err), some (jsErrMsg rbe)⟩

/-- C1: whenever the executor's run rejects, `executeRestructure` never
throws past its boundary: for every rollback outcome it returns a structured
result with `success := false` and the pre-run snapshot's id, whose message
distinguishes the three rollback outcomes (restored, returned false, threw)
by three pairwise distinct strings. -/
theorem executeRestructure_failure_structured (snapshot : Snapshot) (err : String)
    (restoreRes : Except String Bool) (ops : List Operation) :
    (executeRestructure (.ok snapshot) (.error err) restoreRes ops
      = .ok { success := false, snapshotId := snapshot.id,
              message :=
                match restoreRes with
                | .ok true => "Restructuring failed and was rolled back automatically"
                | .ok false => "Restructuring failed and automatic rollback also failed"
                | .error _ => "Restructuring failed and rollback failed",
              operations := none,
              error := some (jsErrMsg err),
              rollbackError :=
                match restoreRes with
                | .error rbe => some (jsErrMsg rbe)
                | .ok _ => none })
    ∧ ("Restructuring failed and was rolled back automatically"
        ≠ "Restructuring failed and automatic rollback also failed"
      ∧ "Restructuring failed and was rolled back automatically"
        ≠ "Restructuring failed and rollback failed"
      ∧ "Restructuring failed and automatic rollback also failed"
        ≠ "Restructuring failed and rollback failed") := by
  refine ⟨?_, by decide, by decide, by decide⟩
  rcases restoreRes with e | b
  · rfl
  · cases b <;> rfl

/-! ## Name Index Builder (`createNameToIdMapping`) -/

/-- A Name Index entry. `createNameToIdMapping` stores
`{id, title, path, url}`; `createMissingFolders` stores `{id, title, isNew}`
(no path, no url). -/
structure NameEntry where
  id : String
  title : String
  path : Option String
  url : Option String
  isNew : Bool
deriving DecidableEq

mutual

/-- `createNameToIdMapping` over a node list: each node is indexed under its
bare title and under its full path, then its children are walked with the
extended path. -/
def cnimList : List BNode → List (String × NameEntry) → String → List (String × NameEntry)
  | [], m, _ => m
  | n :: rest, m, path => cnimList rest (cnimNode n m path) path

def cnimNode : BNode → List (String × NameEntry) → String → List (String × NameEntry)
  | .mk id title url _ children, m, path =>
    let nodePath := if path.isEmpty then title else path ++ "/" ++ title
    let e : NameEntry := ⟨id, title, some nodePath, url, false⟩
    cnimList children (jsMapSet (jsMapSet m title e) nodePath e) nodePath

end

/-- `BookmarkRestructuringService.createNameToIdMapping` (fresh map, empty path). -/
def createNameToIdMapping (nodes : List BNode) : List (String × NameEntry) :=
  cnimList nodes [] ""

mutual

/-- The entries written by `createNameToIdMapping`, in visit order (one entry
per node; the map receives it twice, keyed by title and by path). -/
def visitEntriesList : List BNode → String → List NameEntry
  | [], _ => []
  | n :: rest, path => visitEntriesNode n path ++ visitEntriesList rest path

def visitEntriesNode : BNode → String → List NameEntry
  | .mk id title url _ children, path =>
    let nodePath := if path.isEmpty then title else path ++ "/" ++ title
    ⟨id, title, some nodePath, url, false⟩ :: visitEntriesList children nodePath

end

/-- The two map writes a visited node performs. -/
def entryWrites (e : NameEntry) : List (String × NameEntry) :=
  [(e.title, e), (e.path.getD "", e)]

def writesOf : List NameEntry → List (String × NameEntry)
  | [] => []
  | e :: rest => (e.title, e) :: (e.path.getD "", e) :: writesOf rest

def foldSets (m : List (String × NameEntry)) (ws : List (String × NameEntry)) :
    List (String × NameEntry) :=
  ws.foldl (fun m kv => jsMapSet m kv.1 kv.2) m

/-- A string free of the path separator. -/
def slashFree (s : String) : Bool := !s.data.contains '/'

/-- The later-visited node's entry for a title (shadowing winner). -/
def findLastEntryByTitle : List NameEntry → String → Option NameEntry
  | [], _ => none
  | e :: rest, t =>
    match findLastEntryByTitle rest t with
    | some v => some v
    | none => if e.title = t then some e else none

/-- C10 counterexample tree: node `x` is titled `A/B`, and a node `B` inside
folder `A` has full path `A/B`. All bare titles are pairwise distinct. -/
def cexTreeX : List BNode :=
  [.mk "x" "A/B" none none [],
   .mk "a" "A" none none [.mk "b" "B" none none []]]

/-- C10 counterexample: bare titles are pairwise distinct, yet looking up the
bare title `A/B` returns node `b`'s entry (its full-path write shadowed the
title write of node `x`), not an entry whose id is `x`. -/
theorem nameIndex_bare_title_shadowed_by_path :
    ((cexTreeX.map BNode.title).Nodup
      ∧ jsMapGet (createNameToIdMapping cexTreeX) "A/B"
          = some ⟨"b", "B", some "A/B", none, false⟩)
    ∧ ("b" : String) ≠ "x" := by
  constructor
  · constructor
    · decide
    · decide
  · decide

theorem writesOf_append (a b : List NameEntry) :
    writesOf (a ++ b) = writesOf a ++ writesOf b := by
  induction a with
  | nil => rfl
  | cons e rest ih => simp [writesOf, ih]

theorem foldSets_append (m : List (String × NameEntry)) (a b : List (String × NameEntry)) :
    foldSets m (a ++ b) = foldSets (foldSets m a) b := by
  simp [foldSets]

mutual

theorem cnimNode_eq_writes (n : BNode) (m : List (String × NameEntry)) (path : String) :
    cnimNode n m path = foldSets m (writesOf (visitEntriesNode n path)) := by
  cases n with
  | mk id title url idx children =>
    simp only [cnimNode, visitEntriesNode, writesOf]
    rw [cnimList_eq_writes children]
    rfl

theorem cnimList_eq_writes (ns : List BNode) (m : List (String × NameEntry)) (path : String) :
    cnimList ns m path = foldSets m (writesOf (visitEntriesList ns path)) := by
  cases ns with
  | nil => rfl
  | cons n rest =>
    simp only [cnimList, visitEntriesList]
    rw [cnimNode_eq_writes n, cnimList_eq_writes rest, writesOf_append, foldSets_append]

end

/-- Shape of every entry's path: either it equals the bare title (top level of
an empty starting path) or it contains the separator. -/
def pathShaped (e : NameEntry) : Prop :=
  e.path = some e.title ∨ ∃ p, e.path = some p ∧ p.data.contains '/' = true

mutual

theorem visitEntriesNode_path_shape (n : BNode) (path : String) :
    ∀ e ∈ visitEntriesNode n path, pathShaped e := by
  cases n with
  | mk id title url idx children =>
    intro e he
    simp only [visitEntriesNode, List.mem_cons] at he
    rcases he with he | he
    · subst he
      by_cases hp : path.isEmpty
      · exact Or.inl (by simp [hp])
      · refine Or.inr ⟨path ++ "/" ++ title, by simp [hp], ?_⟩
        simp [String.data_append]
    · exact visitEntriesList_path_shape children _ e he

theorem visitEntriesList_path_shape (ns : List BNode) (path : String) :
    ∀ e ∈ visitEntriesList ns path, pathShaped e := by
  cases ns with
  | nil => intro e he; simp [visitEntriesList] at he
  | cons n rest =>
    intro e he
    simp only [visitEntriesList, List.mem_append] at he
    rcases he with he | he
    · exact visitEntriesNode_path_shape n _ e he
    · exact visitEntriesList_path_shape rest _ e he

end

theorem get_foldSets_title (es : List NameEntry) :
    ∀ (m : List (String × NameEntry)) (t : String), slashFree t = true →
      (∀ e ∈ es, pathShaped e) →
      jsMapGet (foldSets m (writesOf es)) t
        = match findLastEntryByTitle es t with
          | some v => some v
          | none => jsMapGet m t := by
  induction es with
  | nil => intro m t _ _; rfl
  | cons e rest ih =>
    intro m t hsf hshape
    have hstep : foldSets m (writesOf (e :: rest))
        = foldSets (jsMapSet (jsMapSet m e.title e) (e.path.getD "") e) (writesOf rest) := rfl
    rw [hstep, ih _ t hsf (fun x hx => hshape x (List.mem_cons_of_mem _ hx))]
    simp only [findLastEntryByTitle]
    cases hfl : findLastEntryByTitle rest t with
    | some v => rfl
    | none =>
      rw [jsMapGet_set, jsMapGet_set]
      have hkey : e.path.getD "" = t → e.title = t := by
        intro hk
        rcases hshape e (List.mem_cons_self _ _) with hs | ⟨p, hp, hc⟩
        · rw [hs] at hk; simpa using hk
        · rw [hp] at hk
          simp only [Option.getD_some] at hk
          subst hk
          simp only [slashFree] at hsf
          rw [hc] at hsf
          simp at hsf
      by_cases hpk : e.path.getD "" = t
      · have ht := hkey hpk
        simp [hpk, ht]
      · simp only [hpk, if_false]
        by_cases ht : e.title = t <;> simp [ht]

theorem get_foldSets_untouched (es : List NameEntry) :
    ∀ (m : List (String × NameEntry)) (k : String),
      (∀ e ∈ es, e.title ≠ k ∧ e.path.getD "" ≠ k) →
      jsMapGet (foldSets m (writesOf es)) k = jsMapGet m k := by
  induction es with
  | nil => intro m k _; rfl
  | cons e rest ih =>
    intro m k h
    have hstep : foldSets m (writesOf (e :: rest))
        = foldSets (jsMapSet (jsMapSet m e.title e) (e.path.getD "") e) (writesOf rest) := rfl
    rw [hstep, ih _ k (fun x hx => h x (List.mem_cons_of_mem _ hx))]
    have he := h e (List.mem_cons_self _ _)
    rw [jsMapGet_set, jsMapGet_set]
    simp [he.1, he.2]

theorem get_foldSets_unique (es : List NameEntry) :
    ∀ (m : List (String × NameEntry)) (k : String) (e0 : NameEntry), e0 ∈ es →
      (e0.title = k ∨ e0.path.getD "" = k) →
      (∀ e ∈ es, (e.title = k ∨ e.path.getD "" = k) → e = e0) →
      jsMapGet (foldSets m (writesOf es)) k = some e0 := by
  induction es with
  | nil => intro m k e0 h; simp at h
  | cons e rest ih =>
    intro m k e0 hmem hkey huniq
    have hstep : foldSets m (writesOf (e :: rest))
        = foldSets (jsMapSet (jsMapSet m e.title e) (e.path.getD "") e) (writesOf rest) := rfl
    rw [hstep]
    by_cases hrest : e0 ∈ rest
    · exact ih _ k e0 hrest hkey (fun x hx => huniq x (List.mem_cons_of_mem _ hx))
    · have he : e = e0 := by
        rcases List.mem_cons.mp hmem with h | h
        · exact h.symm
        · exact absurd h hrest
      subst he
      rw [get_foldSets_untouched rest _ k ?untouched]
      case untouched =>
        intro x hx
        constructor
        · intro hc
          exact hrest (huniq x (List.mem_cons_of_mem _ hx) (Or.inl hc) ▸ hx)
        · intro hc
          exact hrest (huniq x (List.mem_cons_of_mem _ hx) (Or.inr hc) ▸ hx)
      rw [jsMapGet_set, jsMapGet_set]
      rcases hkey with hk | hk
      · by_cases hpk : e.path.getD "" = k <;> simp [hpk, hk]
      · simp [hk]

theorem findLastEntryByTitle_sound (es : List NameEntry) (t : String) (v : NameEntry) :
    findLastEntryByTitle es t = some v → v ∈ es ∧ v.title = t := by
  induction es with
  | nil => intro h; simp [findLastEntryByTitle] at h
  | cons e rest ih =>
    intro h
    simp only [findLastEntryByTitle] at h
    cases hfl : findLastEntryByTitle rest t with
    | some w =>
      rw [hfl] at h
      obtain ⟨h1, h2⟩ := ih (hfl.trans (by injection h; subst_vars; rfl))
      exact ⟨List.mem_cons_of_mem _ h1, h2⟩
    | none =>
      rw [hfl] at h
      by_cases ht : e.title = t
      · simp only [ht, if_pos] at h
        injection h with h
        subst h
        exact ⟨List.mem_cons_self _ _, ht⟩
      · simp [ht] at h

theorem findLastEntryByTitle_unique (es : List NameEntry) (e0 : NameEntry) :
    e0 ∈ es → (∀ e ∈ es, e.title = e0.title → e = e0) →
    findLastEntryByTitle es e0.title = some e0 := by
  induction es with
  | nil => intro h; simp at h
  | cons e rest ih =>
    intro hmem huniq
    simp only [findLastEntryByTitle]
    by_cases hrest : e0 ∈ rest
    · rw [ih hrest (fun x hx hxt => huniq x (List.mem_cons_of_mem _ hx) hxt)]
    · have he : e = e0 := by
        rcases List.mem_cons.mp hmem with h | h
        · exact h.symm
        · exact absurd h hrest
      subst he
      cases hfl : findLastEntryByTitle rest e.title with
      | some w =>
        obtain ⟨hw1, hw2⟩ := findLastEntryByTitle_sound rest _ _ hfl
        have := huniq w (List.mem_cons_of_mem _ hw1) hw2
        subst this
        exact absurd hw1 hrest
      | none => simp

/-- C10 (amended): over trees whose bare titles contain no path separator,
(i) looking up a bare title in the Name Index returns the entry of the
later-visited (last in traversal order) node with that title — the shadowing
winner; (ii) hence with pairwise distinct bare titles, every node's title
lookup round-trips to its own entry and id; (iii) full-path keys are
unambiguous when, additionally, full paths are pairwise distinct: each
node's path lookup returns its own entry. -/
theorem nameIndex_roundtrip_amended (nodes : List BNode)
    (hsf : ∀ e ∈ visitEntriesList nodes "", slashFree e.title = true) :
    (∀ t, slashFree t = true →
        jsMapGet (createNameToIdMapping nodes) t
          = findLastEntryByTitle (visitEntriesList nodes "") t)
    ∧ (((visitEntriesList nodes "").map NameEntry.title).Nodup →
        ∀ e ∈ visitEntriesList nodes "",
          jsMapGet (createNameToIdMapping nodes) e.title = some e)
    ∧ (((visitEntriesList nodes "").map NameEntry.title).Nodup →
        ((visitEntriesList nodes "").map NameEntry.path).Nodup →
        ∀ e ∈ visitEntriesList nodes "",
          jsMapGet (createNameToIdMapping nodes) (e.path.getD "") = some e) := by
  have hshape := visitEntriesList_path_shape nodes ""
  have hbase : createNameToIdMapping nodes
      = foldSets [] (writesOf (visitEntriesList nodes "")) := by
    unfold createNameToIdMapping
    exact cnimList_eq_writes nodes [] ""
  refine ⟨?_, ?_, ?_⟩
  · intro t ht
    rw [hbase, get_foldSets_title _ _ t ht hshape]
    cases hfl : findLastEntryByTitle (visitEntriesList nodes "") t with
    | some v => rfl
    | none => rfl
  · intro hnodup e he
    have huniq : ∀ x ∈ visitEntriesList nodes "", x.title = e.title → x = e := by
      intro x hx hxt
      exact List.inj_on_of_nodup_map hnodup hx he hxt
    rw [hbase, get_foldSets_title _ _ e.title (hsf e he) hshape,
      findLastEntryByTitle_unique _ e he huniq]
  · intro hnodup hpnodup e he
    rw [hbase]
    apply get_foldSets_unique _ _ _ e he (Or.inr rfl)
    intro x hx hkey
    rcases hkey with hk | hk
    · rcases hshape e he with hse | ⟨p, hp, hc⟩
      · rw [hse] at hk
        simp only [Option.getD_some] at hk
        exact List.inj_on_of_nodup_map hnodup hx he hk
      · rw [hp] at hk
        simp only [Option.getD_some] at hk
        have hxf := hsf x hx
        rw [hk] at hxf
        simp only [slashFree] at hxf
        rw [hc] at hxf
        simp at hxf
    · rcases hshape x hx with hsx | ⟨px, hpx, _⟩
      · rcases hshape e he with hse | ⟨pe, hpe, _⟩
        · rw [hsx, hse] at hk
          simp only [Option.getD_some] at hk
          exact List.inj_on_of_nodup_map hnodup hx he hk
        · have : x.path = e.path := by
            rw [hsx, hpe]
            rw [hsx, hpe] at hk
            simpa using hk
          exact List.inj_on_of_nodup_map hpnodup hx he this
      · rcases hshape e he with hse | ⟨pe, hpe, _⟩
        · have : x.path = e.path := by
            rw [hpx, hse]
            rw [hpx, hse] at hk
            simpa using hk
          exact List.inj_on_of_nodup_map hpnodup hx he this
        · have : x.path = e.path := by
            rw [hpx, hpe]
            rw [hpx, hpe] at hk
            simpa using hk
          exact List.inj_on_of_nodup_map hpnodup hx he this

/-- A small duplicate-free tree for the C10 witness. -/
def wTreeC10 : List BNode :=
  [.mk "1" "A" none none [.mk "2" "B" (some "https://b") none []]]

/-- Witness for C10's amended theorem: on a concrete tree with distinct
slash-free titles and distinct paths, title and path lookups round-trip. -/
theorem nameIndex_roundtrip_amended_witness :
    jsMapGet (createNameToIdMapping wTreeC10) "B"
        = some ⟨"2", "B", some "A/B", some "https://b", false⟩
    ∧ jsMapGet (createNameToIdMapping wTreeC10) "A/B"
        = some ⟨"2", "B", some "A/B", some "https://b", false⟩ := by
  constructor
  · exact (nameIndex_roundtrip_amended wTreeC10 (by decide)).2.1 (by decide)
      ⟨"2", "B", some "A/B", some "https://b", false⟩ (by decide)
  · exact (nameIndex_roundtrip_amended wTreeC10 (by decide)).2.2 (by decide) (by decide)
      ⟨"2", "B", some "A/B", some "https://b", false⟩ (by decide)

/-! ## Operation Planner pass 1 (`createMissingFolders`) -/

/-- Planner state: the shared (mutated) Name Index, the `createdFolders`
title-to-id map, the emitted operations, and the position in the stream of
random suffixes (`Math.random().toString(36).substr(2, 9)` draws, supplied
as `supply`). -/
structure PlanState where
  map : List (String × NameEntry)
  folders : List (String × String)
  ops : List Operation
  ctr : Nat

mutual

def processLevel (supply : Nat → String) : List SNode → String → PlanState → PlanState
  | [], _, st => st
  | item :: rest, pid, st =>
    processLevel supply rest pid (processItem supply item pid st)

def processItem (supply : Nat → String) : SNode → String → PlanState → PlanState
  | .mk kind title _ children, pid, st =>
    if kind = "folder" then
      match jsMapGet st.map title with
      | some entry =>
        processLevel supply children entry.id
          { st with folders := jsMapSet st.folders title entry.id }
      | none =>
        let tempId := "temp_" ++ supply st.ctr
        processLevel supply children tempId
          { map := jsMapSet st.map title ⟨tempId, title, none, none, true⟩,
            folders := jsMapSet st.folders title tempId,
            ops := st.ops ++ [plannerCreateOp title pid tempId],
            ctr := st.ctr + 1 }
    else st

end

/-- `BookmarkRestructuringService.createMissingFolders`, including its
initial parent-id validation. -/
def createMissingFolders (supply : Nat → String) (target : List SNode)
    (map : List (String × NameEntry)) (parentId : String) (ctr : Nat) : PlanState :=
  let pid := if parentId.isEmpty ∨ parentId = "undefined" then "1" else parentId
  processLevel supply target pid ⟨map, [], [], ctr⟩

/-- A planned folder creation, as the spec describes it:
`Create{title, parentId, tempId}`. -/
structure CreateRec where
  title : String
  parentId : String
  tempId : String
deriving DecidableEq

mutual

/-- Modelled from the spec's Pass 1 description: for each Folder node, reuse
the Name Index identity when the title is known (no operation), otherwise
synthesize a fresh temporary identifier, emit `Create{title, parentId,
tempId}` and register the temp id under the title; recurse into children
with the (real-or-temp) folder id as parent. -/
def specPass1Node (supply : Nat → String) : SNode → (String → Option String) → String → Nat →
    List CreateRec × (String → Option String) × Nat
  | .mk kind title _ children, known, parent, k =>
    if kind = "folder" then
      match known title with
      | some fid => specPass1List supply children known fid k
      | none =>
        let temp := "temp_" ++ supply k
        let r := specPass1List supply children
          (fun t => if title = t then some temp else known t) temp (k + 1)
        (⟨title, parent, temp⟩ :: r.1, r.2)
    else ([], known, k)

def specPass1List (supply : Nat → String) : List SNode → (String → Option String) → String → Nat →
    List CreateRec × (String → Option String) × Nat
  | [], known, _, k => ([], known, k)
  | n :: rest, known, parent, k =>
    let r1 := specPass1Node supply n known parent k
    let r2 := specPass1List supply rest r1.2.1 parent r1.2.2
    (r1.1 ++ r2.1, r2.2)

end

def mkCreateOp (c : CreateRec) : Operation :=
  plannerCreateOp c.title c.parentId c.tempId
mutual

theorem processItem_refines (supply : Nat → String) (n : SNode) (pid : String) (st : PlanState)
    (known : String → Option String)
    (hrel : ∀ t, (jsMapGet st.map t).map NameEntry.id = known t) :
    (processItem supply n pid st).ops
        = st.ops ++ ((specPass1Node supply n known pid st.ctr).1).map mkCreateOp
    ∧ (∀ t, (jsMapGet (processItem supply n pid st).map t).map NameEntry.id
        = (specPass1Node supply n known pid st.ctr).2.1 t)
    ∧ (processItem supply n pid st).ctr = (specPass1Node supply n known pid st.ctr).2.2 := by
  cases n with
  | mk kind title url children =>
    by_cases hk : kind = "folder"
    · subst hk
      simp only [processItem, specPass1Node, if_pos]
      cases hm : jsMapGet st.map title with
      | some entry =>
        have hknown : known title = some entry.id := by rw [← hrel title, hm]; rfl
        simp only [hm, hknown]
        exact processLevel_refines supply children entry.id
          { st with folders := jsMapSet st.folders title entry.id } known hrel
      | none =>
        have hknown : known title = none := by rw [← hrel title, hm]; rfl
        simp only [hm, hknown]
        have hrel' : ∀ t,
            (jsMapGet (jsMapSet st.map title ⟨"temp_" ++ supply st.ctr, title, none, none, true⟩) t).map
                NameEntry.id
              = (fun t => if title = t then some ("temp_" ++ supply st.ctr) else known t) t := by
          intro t
          rw [jsMapGet_set]
          by_cases h : title = t <;> simp [h, hrel t]
        obtain ⟨h1, h2, h3⟩ := processLevel_refines supply children ("temp_" ++ supply st.ctr)
          { map := jsMapSet st.map title ⟨"temp_" ++ supply st.ctr, title, none, none, true⟩,
            folders := jsMapSet st.folders title ("temp_" ++ supply st.ctr),
            ops := st.ops ++ [plannerCreateOp title pid ("temp_" ++ supply st.ctr)],
            ctr := st.ctr + 1 }
          (fun t => if title = t then some ("temp_" ++ supply st.ctr) else known t) hrel'
        refine ⟨?_, h2, h3⟩
        rw [h1]
        simp [mkCreateOp]
    · simp only [processItem, specPass1Node, if_neg hk]
      exact ⟨by simp, hrel, by trivial⟩

theorem processLevel_refines (supply : Nat → String) (ns : List SNode) (pid : String)
    (st : PlanState) (known : String → Option String)
    (hrel : ∀ t, (jsMapGet st.map t).map NameEntry.id = known t) :
    (processLevel supply ns pid st).ops
        = st.ops ++ ((specPass1List supply ns known pid st.ctr).1).map mkCreateOp
    ∧ (∀ t, (jsMapGet (processLevel supply ns pid st).map t).map NameEntry.id
        = (specPass1List supply ns known pid st.ctr).2.1 t)
    ∧ (processLevel supply ns pid st).ctr = (specPass1List supply ns known pid st.ctr).2.2 := by
  cases ns with
  | nil =>
    simp only [processLevel, specPass1List]
    exact ⟨by simp, hrel, by trivial⟩
  | cons n rest =>
    obtain ⟨h1, h2, h3⟩ := processItem_refines supply n pid st known hrel
    obtain ⟨g1, g2, g3⟩ := processLevel_refines supply rest pid (processItem supply n pid st)
      ((specPass1Node supply n known pid st.ctr).2.1) h2
    rw [h3] at g1 g2 g3
    simp only [processLevel, specPass1List]
    refine ⟨?_, g2, g3⟩
    rw [g1, h1]
    simp

end

mutual

theorem specPass1Node_temps (supply : Nat → String) (n : SNode)
    (known : String → Option String) (parent : String) (k : Nat) :
    ((specPass1Node supply n known parent k).1.map CreateRec.tempId)
        = (List.range' k ((specPass1Node supply n known parent k).2.2 - k)).map
            (fun i => "temp_" ++ supply i)
    ∧ k ≤ (specPass1Node supply n known parent k).2.2 := by
  cases n with
  | mk kind title url children =>
    by_cases hk : kind = "folder"
    · subst hk
      simp only [specPass1Node, if_pos]
      cases hq : known title with
      | some fid =>
        simpa using specPass1List_temps supply children known fid k
      | none =>
        obtain ⟨h1, h2⟩ := specPass1List_temps supply children
          (fun t => if title = t then some ("temp_" ++ supply k) else known t)
          ("temp_" ++ supply k) (k + 1)
        constructor
        · simp only [List.map_cons, h1]
          have hcnt : (specPass1List supply children
              (fun t => if title = t then some ("temp_" ++ supply k) else known t)
              ("temp_" ++ supply k) (k + 1)).2.2 - k
              = ((specPass1List supply children
                  (fun t => if title = t then some ("temp_" ++ supply k) else known t)
                  ("temp_" ++ supply k) (k + 1)).2.2 - (k + 1)) + 1 := by omega
          rw [hcnt, List.range'_succ]
          simp
        · show k ≤ (specPass1List supply children
              (fun t => if title = t then some ("temp_" ++ supply k) else known t)
              ("temp_" ++ supply k) (k + 1)).2.2
          omega
    · simp only [specPass1Node, if_neg hk]
      exact ⟨by simp, le_refl k⟩

theorem specPass1List_temps (supply : Nat → String) (ns : List SNode)
    (known : String → Option String) (parent : String) (k : Nat) :
    ((specPass1List supply ns known parent k).1.map CreateRec.tempId)
        = (List.range' k ((specPass1List supply ns known parent k).2.2 - k)).map
            (fun i => "temp_" ++ supply i)
    ∧ k ≤ (specPass1List supply ns known parent k).2.2 := by
  cases ns with
  | nil => exact ⟨by simp [specPass1List], le_refl k⟩
  | cons n rest =>
    obtain ⟨h1, h2⟩ := specPass1Node_temps supply n known parent k
    obtain ⟨g1, g2⟩ := specPass1List_temps supply rest
      ((specPass1Node supply n known parent k).2.1) parent
      ((specPass1Node supply n known parent k).2.2)
    simp only [specPass1List, List.map_append, h1, g1]
    constructor
    · have := List.range'_append k
        ((specPass1Node supply n known parent k).2.2 - k)
        ((specPass1List supply rest ((specPass1Node supply n known parent k).2.1) parent
            ((specPass1Node supply n known parent k).2.2)).2.2
          - (specPass1Node supply n known parent k).2.2) 1
      rw [← List.map_append]
      congr 1
      have harg : k + 1 * ((specPass1Node supply n known parent k).2.2 - k)
          = (specPass1Node supply n known parent k).2.2 := by omega
      rw [harg] at this
      rw [this]
      congr 1
      omega
    · omega

end

theorem string_append_left_cancel {a b c : String} (h : a ++ b = a ++ c) : b = c := by
  have hd : a.data ++ b.data = a.data ++ c.data := by
    rw [← String.data_append, ← String.data_append, h]
  have hbc := List.append_cancel_left hd
  cases b; cases c
  exact congrArg String.mk hbc

/-- C6: Pass 1 of planning refines its specification: for every folder node
of the target tree, a title already in the Name Index is reused with no
operation emitted, otherwise exactly one
`Create{title, parentId: currentParentId, tempId}` with the next temporary
id is emitted and that temp id is registered in the Name Index under the
title; children are walked with the (real-or-temp) folder id as parent.
Moreover, with an injective random-suffix stream the emitted temp ids are
pairwise distinct (fresh). -/
theorem createMissingFolders_pass1 (supply : Nat → String) (target : List SNode)
    (map : List (String × NameEntry)) (parentId : String) (ctr : Nat)
    (known : String → Option String)
    (hrel : ∀ t, (jsMapGet map t).map NameEntry.id = known t) :
    ((createMissingFolders supply target map parentId ctr).ops
        = ((specPass1List supply target known
              (if parentId.isEmpty ∨ parentId = "undefined" then "1" else parentId)
              ctr).1).map mkCreateOp)
    ∧ (∀ t, (jsMapGet (createMissingFolders supply target map parentId ctr).map t).map
          NameEntry.id
        = (specPass1List supply target known
            (if parentId.isEmpty ∨ parentId = "undefined" then "1" else parentId)
            ctr).2.1 t)
    ∧ (Function.Injective supply →
        ((createMissingFolders supply target map parentId ctr).ops.map
            Operation.tempId).Nodup) := by
  obtain ⟨h1, h2, h3⟩ := processLevel_refines supply target
    (if parentId.isEmpty ∨ parentId = "undefined" then "1" else parentId)
    ⟨map, [], [], ctr⟩ known hrel
  have hdef : createMissingFolders supply target map parentId ctr
      = processLevel supply target
          (if parentId.isEmpty ∨ parentId = "undefined" then "1" else parentId)
          ⟨map, [], [], ctr⟩ := rfl
  refine ⟨by rw [hdef, h1]; simp, fun t => by rw [hdef]; exact h2 t, ?_⟩
  intro hinj
  rw [hdef, h1]
  simp only [List.nil_append]
  have hmaps : ∀ (crs : List CreateRec),
      (crs.map mkCreateOp).map Operation.tempId = (crs.map CreateRec.tempId).map some := by
    intro crs
    induction crs with
    | nil => rfl
    | cons c rest ih => simp [mkCreateOp, plannerCreateOp, ih]
  rw [hmaps, (specPass1List_temps supply target known _ ctr).1]
  apply List.Nodup.map
  · intro a b hab
    injection hab
  · apply List.Nodup.map
    · intro a b hab
      exact hinj (string_append_left_cancel hab)
    · exact List.nodup_range' _ _

/-- Witness for C6 at a concrete target: one missing folder yields exactly
one create operation with the next temp id. -/
theorem createMissingFolders_pass1_witness :
    (createMissingFolders (fun _ => "r1") [SNode.mk "folder" "New" none []] [] "1" 0).ops
      = [plannerCreateOp "New" "1" "temp_r1"] := by
  have h := (createMissingFolders_pass1 (fun _ => "r1") [SNode.mk "folder" "New" none []]
    [] "1" 0 (fun _ => none) (fun t => rfl)).1
  rw [h]
  decide

/-! ## Operation Planner pass 2 (`moveItemsToTargetStructure`) and
`simulateRestructure` -/

/-- State of the move pass: the known-folder and known-bookmark id sets and
the operation list being extended. -/
structure MoveState where
  folderIds : List String
  bookmarkIds : List String
  ops : List Operation

/-- A move operation `{type:'move', id, destination:{parentId, index}}`. -/
def moveOp (id pid : String) (idx : Nat) : Operation :=
  ⟨some "move", none, none, none, some id, some ⟨some pid, some (idx : Int)⟩⟩

/-- Seeding of the folder/bookmark id sets from the Name Index: entries with
a (truthy) url are bookmarks; entries whose key has no path separator are
taken as folders. -/
def seedIds : List (String × NameEntry) → List String × List String → List String × List String
  | [], s => s
  | (name, info) :: rest, (f, b) =>
    if truthy info.url then seedIds rest (f, jsSetAdd b info.id)
    else if !name.data.contains '/' then seedIds rest (jsSetAdd f info.id, b)
    else seedIds rest (f, b)

/-- `if (bookmarkIds.has(parentId) || !folderIds.has(parentId)) parentId = '1'`. -/
def validateParent (st : MoveState) (parentId : String) : String :=
  if st.bookmarkIds.contains parentId || !st.folderIds.contains parentId then "1" else parentId

mutual

/-- One item of the `processTargetLevel` for-loop body; returns the updated
state and the sibling index after the item (non-folder, non-bookmark items
do not advance it). Recursion into a folder's children re-validates the
parent id against the current sets. -/
def ptlItem (cf : List (String × String)) (map : List (String × NameEntry)) :
    SNode → String → Nat → MoveState → MoveState × Nat
  | .mk kind title _ children, pid, idx, st =>
    if kind = "folder" then
      let a := jsMapGet cf title
      let b := (jsMapGet map title).map NameEntry.id
      let folderId : Option String := if truthy a then a else b
      if truthy folderId then
        let fid := folderId.getD ""
        let st1 : MoveState :=
          { st with folderIds := jsSetAdd st.folderIds fid,
                    ops := st.ops ++ [moveOp fid pid idx] }
        (ptlLoop cf map children (validateParent st1 fid) 0 st1, idx + 1)
      else (st, idx + 1)
    else if kind = "bookmark" then
      match jsMapGet map title with
      | some info =>
        let st1 : MoveState := { st with bookmarkIds := jsSetAdd st.bookmarkIds info.id }
        let st2 :=
          if st1.folderIds.contains pid then
            { st1 with ops := st1.ops ++ [moveOp info.id pid idx] }
          else st1
        (st2, idx + 1)
      | none => (st, idx + 1)
    else (st, idx)

/-- The `processTargetLevel` loop over one level, with the level's parent id
already validated. -/
def ptlLoop (cf : List (String × String)) (map : List (String × NameEntry)) :
    List SNode → String → Nat → MoveState → MoveState
  | [], _, _, st => st
  | item :: rest, pid, idx, st =>
    let r := ptlItem cf map item pid idx st
    ptlLoop cf map rest pid r.2 r.1

end

/-- `BookmarkRestructuringService.moveItemsToTargetStructure`. -/
def moveItemsToTargetStructure (target : List SNode) (map : List (String × NameEntry))
    (cf : List (String × String)) (cfOps : List Operation) : List Operation :=
  let s0 := seedIds map ([], [])
  let f1 := cf.foldl (fun f kv => jsSetAdd f kv.2) s0.1
  let f2 := jsSetAdd (jsSetAdd (jsSetAdd (jsSetAdd f1 "0") "1") "2") "3"
  let st0 : MoveState := ⟨f2, s0.2, cfOps⟩
  (ptlLoop cf map target (validateParent st0 "1") 0 st0).ops

/-- `BookmarkRestructuringService.simulateRestructure`: build the Name Index
from the source, run Pass 1 (which mutates the index and draws temp-id
suffixes from the `Math.random` stream at position `ctr`), then run the move
pass; returns the planned operations and the advanced stream position. -/
def simulateRestructure (supply : Nat → String) (ctr : Nat) (source : List BNode)
    (target : List SNode) : List Operation × Nat :=
  let map := createNameToIdMapping source
  let pst := createMissingFolders supply target map "1" ctr
  (moveItemsToTargetStructure target pst.map pst.folders pst.ops, pst.ctr)

/-- C7 counterexample stream of `Math.random` suffixes. -/
def c7supply : Nat → String := fun n => if n = 0 then "a" else "b"

/-- C7 counterexample target: one folder absent from the (empty) source. -/
def c7target : List SNode := [SNode.mk "folder" "A" none []]

/-- C7 counterexample: two runs of `simulateRestructure` on the same empty
source and one-folder target draw different `Math.random` suffixes (the
stream advances between calls), so the two operation lists differ in their
temporary ids. -/
theorem simulateRestructure_runs_differ :
    (simulateRestructure c7supply 0 [] c7target).1
      ≠ (simulateRestructure c7supply (simulateRestructure c7supply 0 [] c7target).2 []
          c7target).1 := by
  decide

mutual

/-- Every folder title in the target tree is a key of the Name Index. -/
def allFoldersKnownNode (map : List (String × NameEntry)) : SNode → Bool
  | .mk kind title _ children =>
    if kind = "folder" then
      (jsMapGet map title).isSome && allFoldersKnownList map children
    else true

def allFoldersKnownList (map : List (String × NameEntry)) : List SNode → Bool
  | [] => true
  | n :: rest => allFoldersKnownNode map n && allFoldersKnownList map rest

end

mutual

/-- The `createdFolders` map produced by Pass 1 when every folder already
exists: a pure function of the (unchanged) Name Index. -/
def pureFoldersNode (map : List (String × NameEntry)) :
    SNode → List (String × String) → List (String × String)
  | .mk kind title _ children, f =>
    if kind = "folder" then
      match jsMapGet map title with
      | some e => pureFoldersList map children (jsMapSet f title e.id)
      | none => f
    else f

def pureFoldersList (map : List (String × NameEntry)) :
    List SNode → List (String × String) → List (String × String)
  | [], f => f
  | n :: rest, f => pureFoldersList map rest (pureFoldersNode map n f)

end

mutual

theorem processItem_no_create (supply : Nat → String) (n : SNode) (pid : String)
    (st : PlanState) (h : allFoldersKnownNode st.map n = true) :
    processItem supply n pid st
      = { st with folders := pureFoldersNode st.map n st.folders } := by
  cases n with
  | mk kind title url children =>
    by_cases hk : kind = "folder"
    · subst hk
      simp only [allFoldersKnownNode, if_pos] at h
      cases hm : jsMapGet st.map title with
      | some e =>
        rw [hm] at h
        simp only [Option.isSome_some, Bool.true_and] at h
        simp only [processItem, pureFoldersNode, if_pos, hm]
        exact processLevel_no_create supply children e.id
          { st with folders := jsMapSet st.folders title e.id } h
      | none =>
        rw [hm] at h
        simp at h
    · simp only [processItem, pureFoldersNode, if_neg hk]

theorem processLevel_no_create (supply : Nat → String) (ns : List SNode) (pid : String)
    (st : PlanState) (h : allFoldersKnownList st.map ns = true) :
    processLevel supply ns pid st
      = { st with folders := pureFoldersList st.map ns st.folders } := by
  cases ns with
  | nil => simp only [processLevel, pureFoldersList]
  | cons n rest =>
    simp only [allFoldersKnownList, Bool.and_eq_true] at h
    simp only [processLevel, pureFoldersList]
    rw [processItem_no_create supply n pid st h.1]
    exact processLevel_no_create supply rest pid _ h.2

end

/-- C7 (amended): `simulateRestructure` is deterministic whenever planning
emits no Create operation — that is, whenever every folder title of the
target structure is already in the Name Index built from the source. In
that case the random temp-id stream is never consulted and two runs (at any
stream positions) produce the same operation list. -/
theorem simulateRestructure_no_creates_deterministic (s1 s2 : Nat → String)
    (k1 k2 : Nat) (source : List BNode) (target : List SNode)
    (h : allFoldersKnownList (createNameToIdMapping source) target = true) :
    (simulateRestructure s1 k1 source target).1
      = (simulateRestructure s2 k2 source target).1 := by
  have e : ∀ (s : Nat → String) (k : Nat),
      createMissingFolders s target (createNameToIdMapping source) "1" k
        = { map := createNameToIdMapping source,
            folders := pureFoldersList (createNameToIdMapping source) target [],
            ops := [], ctr := k } := by
    intro s k
    unfold createMissingFolders
    exact processLevel_no_create s target _ ⟨createNameToIdMapping source, [], [], k⟩ h
  simp only [simulateRestructure]
  rw [e s1 k1, e s2 k2]

/-- Witness for C7's amended theorem: with the single target folder already
in the source, two runs at different stream positions and with different
streams coincide. -/
theorem simulateRestructure_no_creates_deterministic_witness :
    (simulateRestructure (fun _ => "x") 0 [BNode.mk "5" "A" none none []]
        [SNode.mk "folder" "A" none []]).1
      = (simulateRestructure (fun _ => "y") 7 [BNode.mk "5" "A" none none []]
          [SNode.mk "folder" "A" none []]).1 :=
  simulateRestructure_no_creates_deterministic (fun _ => "x") (fun _ => "y") 0 7
    [BNode.mk "5" "A" none none []] [SNode.mk "folder" "A" none []] (by decide)

/-! ## Snapshot Manager: listing and pruning
(`ChromeBookmarkTransactionManager.getSnapshots` / `cleanupSnapshots`) -/

/-- The storage key namespace of snapshots. -/
def snapKeyPre : String := "bookmark_snapshot_"

def isSnapKey (k : String) : Bool := snapKeyPre.data.isPrefixOf k.data

/-- The comparator `(a, b) => b.timestamp - a.timestamp` (newest first). -/
def cmpSnap (a b : Snapshot) : Int := b.timestamp - a.timestamp

/-- `getSnapshots`: collect every stored item whose key is in the snapshot
namespace (in storage iteration order) and sort newest-first. -/
def getSnapshots (items : List (String × Snapshot)) : List Snapshot :=
  jsSortBy cmpSnap ((items.filter (fun kv => isSnapKey kv.1)).map (fun kv => kv.2))

/-- `cleanupSnapshots(maxToKeep)`: when more snapshots are stored than the
cutoff, remove the persisted entry of every snapshot beyond it (newest-first
order). Returns the remaining storage and the removed keys. -/
def cleanupSnapshots (items : List (String × Snapshot)) (maxToKeep : Nat) :
    List (String × Snapshot) × List String :=
  let snaps := getSnapshots items
  if snaps.length > maxToKeep then
    let keys := (snaps.drop maxToKeep).map (fun s => snapKeyPre ++ s.id)
    (items.filter (fun kv => !(keys.contains kv.1)), keys)
  else (items, [])

/-- Binary insertion against a partitioned accumulator: the pivot lands
exactly at the boundary. -/
theorem binInsertPos_partition {α : Type} (cmp : α → α → Int) (pivot : α)
    (l1 l2 : List α) (h1 : ∀ x ∈ l1, ¬ cmp pivot x < 0) (h2 : ∀ x ∈ l2, cmp pivot x < 0) :
    binInsertPos cmp pivot (l1 ++ l2) = l1.length := by
  unfold binInsertPos
  apply binPosGo_boundary _ l1.length _ 0 _ (Nat.zero_le _) (by simp) (by simp)
  · intro i _ hi
    have hmem : (l1 ++ l2).getD i pivot ∈ l1 := by
      rw [getD_append_left _ _ _ _ hi]; exact getD_mem _ _ _ hi
    simpa using h1 _ hmem
  · intro i hi hi2
    have hmem : (l1 ++ l2).getD i pivot ∈ l2 := by
      rw [getD_append_right _ _ _ _ hi]
      exact getD_mem _ _ _ (by simp at hi2; omega)
    simpa using h2 _ hmem

/-- In a newest-first sorted list, everything the `takeWhile` boundary skips
is strictly older than the pivot. -/
theorem dropWhile_older (pivot : Snapshot) :
    ∀ (l : List Snapshot), l.Pairwise (fun a b => b.timestamp ≤ a.timestamp) →
      ∀ x ∈ l.dropWhile (fun y => decide (pivot.timestamp ≤ y.timestamp)),
        x.timestamp < pivot.timestamp := by
  intro l
  induction l with
  | nil => intro _ x hx; simp at hx
  | cons y ys ih =>
    intro hs x hx
    rw [List.pairwise_cons] at hs
    by_cases hq : pivot.timestamp ≤ y.timestamp
    · rw [List.dropWhile_cons_of_pos (by simpa using hq)] at hx
      exact ih hs.2 x hx
    · rw [List.dropWhile_cons_of_neg (by simpa using hq)] at hx
      rcases List.mem_cons.mp hx with h | h
      · subst h; omega
      · have := hs.1 x h
        omega

theorem jsSortStep_snap_sorted (pivot : Snapshot) (acc : List Snapshot)
    (hs : acc.Pairwise (fun a b => b.timestamp ≤ a.timestamp)) :
    (jsSortStep cmpSnap acc pivot).Pairwise (fun a b => b.timestamp ≤ a.timestamp) := by
  unfold jsSortStep
  have hsplit : acc.takeWhile (fun y => decide (pivot.timestamp ≤ y.timestamp))
      ++ acc.dropWhile (fun y => decide (pivot.timestamp ≤ y.timestamp)) = acc :=
    List.takeWhile_append_dropWhile _ _
  obtain ⟨t, ht⟩ : ∃ t, acc.takeWhile (fun y => decide (pivot.timestamp ≤ y.timestamp)) = t :=
    ⟨_, rfl⟩
  obtain ⟨d, hd⟩ : ∃ d, acc.dropWhile (fun y => decide (pivot.timestamp ≤ y.timestamp)) = d :=
    ⟨_, rfl⟩
  rw [ht, hd] at hsplit
  have hpos : binInsertPos cmpSnap pivot acc = t.length := by
    conv_lhs => rw [← hsplit]
    apply binInsertPos_partition
    · intro x hx
      rw [← ht] at hx
      have := List.mem_takeWhile_imp hx
      simp only [decide_eq_true_eq] at this
      simp only [cmpSnap]
      omega
    · intro x hx
      rw [← hd] at hx
      have := dropWhile_older pivot acc hs x hx
      simp only [cmpSnap]
      omega
  have htake : acc.take t.length = t := by
    conv_lhs => rw [← hsplit]
    exact List.take_left _ _
  have hdrop : acc.drop t.length = d := by
    conv_lhs => rw [← hsplit]
    exact List.drop_left _ _
  rw [hpos, insertAt_eq_take_drop, htake, hdrop]
  apply List.pairwise_append.mpr
  refine ⟨ht ▸ List.Pairwise.sublist (List.takeWhile_sublist _) hs,
    List.pairwise_cons.mpr ⟨?_, hd ▸ List.Pairwise.sublist (List.dropWhile_sublist _) hs⟩, ?_⟩
  · intro x hx
    rw [← hd] at hx
    have := dropWhile_older pivot acc hs x hx
    omega
  · intro x hx y hy
    rw [← ht] at hx
    have hxts := List.mem_takeWhile_imp hx
    simp only [decide_eq_true_eq] at hxts
    rcases List.mem_cons.mp hy with h | h
    · subst h; omega
    · rw [← hd] at h
      have := dropWhile_older pivot acc hs y h
      omega

theorem getSnapshots_sorted (items : List (String × Snapshot)) :
    (getSnapshots items).Pairwise (fun a b => b.timestamp ≤ a.timestamp) := by
  unfold getSnapshots jsSortBy
  generalize (items.filter (fun kv => isSnapKey kv.1)).map (fun kv => kv.2) = l
  suffices h : ∀ (l acc : List Snapshot),
      acc.Pairwise (fun a b => b.timestamp ≤ a.timestamp) →
      (l.foldl (jsSortStep cmpSnap) acc).Pairwise (fun a b => b.timestamp ≤ a.timestamp) by
    exact h l [] (by simp)
  intro l
  induction l with
  | nil => intro acc h; simpa using h
  | cons x xs ih =>
    intro acc h
    exact ih _ (jsSortStep_snap_sorted x acc h)

theorem filter_map_snd (l : List (String × Snapshot)) (p : Snapshot → Bool) :
    (l.filter (fun kv => p kv.2)).map (fun kv => kv.2)
      = (l.map (fun kv => kv.2)).filter p := by
  induction l with
  | nil => rfl
  | cons kv rest ih =>
    by_cases h : p kv.2 <;> simp [List.filter_cons, h, ih]

theorem cleanupSnapshots_prunes (items : List (String × Snapshot)) (maxToKeep : Nat)
    (hkeys : (items.map (fun kv => kv.1)).Nodup)
    (hcoh : ∀ kv ∈ items, isSnapKey kv.1 = true → kv.1 = snapKeyPre ++ kv.2.id)
    (hlen : maxToKeep < (getSnapshots items).length) :
    ((getSnapshots items).take maxToKeep).length = maxToKeep
    ∧ (∀ k ∈ (getSnapshots items).take maxToKeep,
        ∀ r ∈ (getSnapshots items).drop maxToKeep, r.timestamp ≤ k.timestamp)
    ∧ (cleanupSnapshots items maxToKeep).2
        = ((getSnapshots items).drop maxToKeep).map (fun s => snapKeyPre ++ s.id)
    ∧ (((cleanupSnapshots items maxToKeep).1.filter (fun kv => isSnapKey kv.1)).map
          (fun kv => kv.2)).Perm ((getSnapshots items).take maxToKeep) := by
  have hpair := getSnapshots_sorted items
  have hSV : (getSnapshots items).Perm
      ((items.filter (fun kv => isSnapKey kv.1)).map (fun kv => kv.2)) :=
    jsSortBy_perm _ _
  have hEkeys : ((items.filter (fun kv => isSnapKey kv.1)).map (fun kv => kv.1)).Nodup :=
    List.Nodup.sublist (List.Sublist.map _ (List.filter_sublist _)) hkeys
  have hEcoh : ∀ kv ∈ items.filter (fun kv => isSnapKey kv.1),
      kv.1 = snapKeyPre ++ kv.2.id := by
    intro kv hkv
    have h := List.mem_filter.mp hkv
    exact hcoh kv h.1 h.2
  have hmapeq : (items.filter (fun kv => isSnapKey kv.1)).map (fun kv => kv.1)
      = ((items.filter (fun kv => isSnapKey kv.1)).map (fun kv => kv.2.id)).map
          (fun i => snapKeyPre ++ i) := by
    rw [List.map_map]
    exact List.map_congr_left hEcoh
  have hVid : (((items.filter (fun kv => isSnapKey kv.1)).map (fun kv => kv.2)).map
      Snapshot.id).Nodup := by
    have hmm : ((items.filter (fun kv => isSnapKey kv.1)).map (fun kv => kv.2)).map Snapshot.id
        = (items.filter (fun kv => isSnapKey kv.1)).map (fun kv => kv.2.id) := by
      rw [List.map_map]
      rfl
    rw [hmm]
    apply List.Nodup.of_map (f := fun i => snapKeyPre ++ i)
    rw [← hmapeq]
    exact hEkeys
  have hSid : ((getSnapshots items).map Snapshot.id).Nodup :=
    ((hSV.map Snapshot.id).nodup_iff).mpr hVid
  have hSnodup : (getSnapshots items).Nodup := List.Nodup.of_map _ hSid
  have hcleanup : cleanupSnapshots items maxToKeep
      = (items.filter (fun kv =>
            !((((getSnapshots items).drop maxToKeep).map
                (fun s => snapKeyPre ++ s.id)).contains kv.1)),
         ((getSnapshots items).drop maxToKeep).map (fun s => snapKeyPre ++ s.id)) := by
    simp only [cleanupSnapshots, gt_iff_lt, hlen, if_pos]
  refine ⟨by simp [List.length_take]; omega, ?_, by rw [hcleanup], ?_⟩
  · intro k hk r hr
    have hsplit := List.take_append_drop maxToKeep (getSnapshots items)
    rw [← hsplit] at hpair
    exact (List.pairwise_append.mp hpair).2.2 k hk r hr
  · rw [hcleanup]
    have hff : ∀ (p q : String × Snapshot → Bool) (l : List (String × Snapshot)),
        (l.filter p).filter q = (l.filter q).filter p := by
      intro p q l
      rw [List.filter_filter, List.filter_filter]
      apply List.filter_congr
      intro kv _
      exact Bool.and_comm _ _
    rw [hff]
    have hcong : (items.filter (fun kv => isSnapKey kv.1)).filter (fun kv =>
          !((((getSnapshots items).drop maxToKeep).map
              (fun s => snapKeyPre ++ s.id)).contains kv.1))
        = (items.filter (fun kv => isSnapKey kv.1)).filter (fun kv =>
            !((((getSnapshots items).drop maxToKeep).map Snapshot.id).contains kv.2.id)) := by
      apply List.filter_congr
      intro kv hkv
      have hk := hEcoh kv hkv
      have hiff : kv.1 ∈ ((getSnapshots items).drop maxToKeep).map (fun s => snapKeyPre ++ s.id)
          ↔ kv.2.id ∈ ((getSnapshots items).drop maxToKeep).map Snapshot.id := by
        rw [hk]
        constructor
        · intro hin
          rcases List.mem_map.mp hin with ⟨r, hr, hrid⟩
          exact List.mem_map.mpr ⟨r, hr, string_append_left_cancel hrid⟩
        · intro hin
          rcases List.mem_map.mp hin with ⟨r, hr, hrid⟩
          exact List.mem_map.mpr ⟨r, hr, by rw [hrid]⟩
      by_cases hin : kv.1 ∈ ((getSnapshots items).drop maxToKeep).map
          (fun s => snapKeyPre ++ s.id)
      · have e1 : (((getSnapshots items).drop maxToKeep).map
            (fun s => snapKeyPre ++ s.id)).contains kv.1 = true := List.elem_iff.mpr hin
        have e2 : (((getSnapshots items).drop maxToKeep).map Snapshot.id).contains kv.2.id
            = true := List.elem_iff.mpr (hiff.mp hin)
        rw [e1, e2]
      · have h2 : kv.2.id ∉ ((getSnapshots items).drop maxToKeep).map Snapshot.id :=
          fun hc => hin (hiff.mpr hc)
        have e1 : (((getSnapshots items).drop maxToKeep).map
            (fun s => snapKeyPre ++ s.id)).contains kv.1 = false := by
          by_contra hc
          simp only [Bool.not_eq_false] at hc
          exact hin (List.elem_iff.mp hc)
        have e2 : (((getSnapshots items).drop maxToKeep).map Snapshot.id).contains kv.2.id
            = false := by
          by_contra hc
          simp only [Bool.not_eq_false] at hc
          exact h2 (List.elem_iff.mp hc)
        rw [e1, e2]
    rw [hcong]
    obtain ⟨rid, hrid⟩ : ∃ x, ((getSnapshots items).drop maxToKeep).map Snapshot.id = x :=
      ⟨_, rfl⟩
    rw [hrid]
    rw [filter_map_snd _ (fun v => !(rid.contains v.id))]
    have hfilterperm := hSV.symm.filter (fun v => !(rid.contains v.id))
    refine hfilterperm.trans ?_
    have hsplit := List.take_append_drop maxToKeep (getSnapshots items)
    have hdisj : ((getSnapshots items).take maxToKeep).Disjoint
        ((getSnapshots items).drop maxToKeep) := by
      rw [← hsplit] at hSnodup
      exact List.disjoint_of_nodup_append hSnodup
    have hkeep : ((getSnapshots items).take maxToKeep).filter
        (fun v => !(rid.contains v.id)) = (getSnapshots items).take maxToKeep := by
      apply List.filter_eq_self.mpr
      intro k hk
      simp only [Bool.not_eq_true']
      by_contra hc
      simp only [Bool.not_eq_false] at hc
      rw [← hrid] at hc
      rcases List.mem_map.mp (List.elem_iff.mp hc) with ⟨r, hr, hrideq⟩
      have hkS : k ∈ getSnapshots items := by
        rw [← hsplit]; exact List.mem_append.mpr (Or.inl hk)
      have hrS : r ∈ getSnapshots items := by
        rw [← hsplit]; exact List.mem_append.mpr (Or.inr hr)
      have : r = k := List.inj_on_of_nodup_map hSid hrS hkS hrideq
      subst this
      exact hdisj hk hr
    have hdropn : ((getSnapshots items).drop maxToKeep).filter
        (fun v => !(rid.contains v.id)) = [] := by
      apply List.filter_eq_nil_iff.mpr
      intro r hr
      simp only [Bool.not_eq_true', Bool.not_eq_false]
      rw [← hrid]
      exact List.elem_iff.mpr (List.mem_map.mpr ⟨r, hr, rfl⟩)
    conv_lhs => rw [← hsplit]
    rw [List.filter_append, hkeep, hdropn, List.append_nil]

/-- Fifteen stored snapshots for the C9 witness (timestamps 1..15, stored in
mixed order). -/
def items15C9 : List (String × Snapshot) :=
  [("bookmark_snapshot_s3", ⟨"s3", "n", 3, []⟩),
   ("bookmark_snapshot_s1", ⟨"s1", "n", 1, []⟩),
   ("bookmark_snapshot_s8", ⟨"s8", "n", 8, []⟩),
   ("bookmark_snapshot_s2", ⟨"s2", "n", 2, []⟩),
   ("bookmark_snapshot_s15", ⟨"s15", "n", 15, []⟩),
   ("bookmark_snapshot_s4", ⟨"s4", "n", 4, []⟩),
   ("bookmark_snapshot_s11", ⟨"s11", "n", 11, []⟩),
   ("bookmark_snapshot_s6", ⟨"s6", "n", 6, []⟩),
   ("bookmark_snapshot_s9", ⟨"s9", "n", 9, []⟩),
   ("bookmark_snapshot_s14", ⟨"s14", "n", 14, []⟩),
   ("bookmark_snapshot_s5", ⟨"s5", "n", 5, []⟩),
   ("bookmark_snapshot_s10", ⟨"s10", "n", 10, []⟩),
   ("bookmark_snapshot_s7", ⟨"s7", "n", 7, []⟩),
   ("bookmark_snapshot_s13", ⟨"s13", "n", 13, []⟩),
   ("bookmark_snapshot_s12", ⟨"s12", "n", 12, []⟩)]

/-- Witness for C9: fifteen stored snapshots pruned with `maxToKeep = 10`
keep the ten newest and remove the keys of the other five. -/
theorem cleanupSnapshots_prunes_witness :
    ((getSnapshots items15C9).take 10).length = 10
    ∧ (cleanupSnapshots items15C9 10).2
        = ((getSnapshots items15C9).drop 10).map (fun s => snapKeyPre ++ s.id) := by
  have h := cleanupSnapshots_prunes items15C9 10 (by decide) (by decide) (by decide)
  exact ⟨h.1, h.2.2.1⟩

/-! ## Snapshot Manager: restore
(`ChromeBookmarkTransactionManager.restoreSnapshot`) -/

/-- The platform's reserved top-level folder ids. -/
def reservedIds : List String := ["0", "1", "2", "3"]

/-- A repository call issued while restoring. Per-call failures are caught
and logged by the source, so the trace models the calls placed on the
successful path (`getById` misses are modelled by the oracle returning
`none`, which the source treats as "create it"). -/
inductive RestoreAction where
  | update (id : String)
  | move (id : String) (parentId : Option String) (index : Option Int)
  | create (parentId : Option String) (title : String) (url : Option String)
      (index : Option Int)
  | remove (id : String)
deriving DecidableEq

/-- What `getById` returns for an id that exists (only the parent id is
consulted). -/
structure LiveInfo where
  parentId : Option String

def actionTargetsReserved : RestoreAction → Bool
  | .update i => reservedIds.contains i
  | .move i _ _ => reservedIds.contains i
  | .remove i => reservedIds.contains i
  | .create _ _ _ _ => false

mutual

/-- `mapAllBookmarks`: record every live node id except the root `'0'`,
flagged "not in snapshot". -/
def mapAllBookmarksNode : BNode → List (String × Bool) → List (String × Bool)
  | .mk id _ _ _ children, m =>
    mapAllBookmarksList children (if id = "0" then m else jsMapSet m id true)

def mapAllBookmarksList : List BNode → List (String × Bool) → List (String × Bool)
  | [], m => m
  | n :: rest, m => mapAllBookmarksList rest (mapAllBookmarksNode n m)

end

def mapAllBookmarks (tree : List BNode) : List (String × Bool) :=
  mapAllBookmarksList tree []

/-- `if (existingBookmarks.has(node.id)) get(node.id).notInSnapshot = false`. -/
def markVisited (m : List (String × Bool)) (id : String) : List (String × Bool) :=
  match jsMapGet m id with
  | some _ => jsMapSet m id false
  | none => m

mutual

/-- `restoreBookmarkNode`: root recurses with a null parent, reserved folders
are fixed containers whose children are re-parented, every other snapshot
node is unflagged and then updated/moved (when it still exists) or created
(when it does not), then its children are walked under its id. -/
def restoreNode (repo : String → Option LiveInfo) :
    BNode → Option String → List (String × Bool) → List RestoreAction →
      List (String × Bool) × List RestoreAction
  | .mk id title url index children, parent, m, tr =>
    if id = "0" then restoreNodes repo children none m tr
    else if id = "1" ∨ id = "2" ∨ id = "3" then restoreNodes repo children (some id) m tr
    else
      let m1 := markVisited m id
      let tr1 :=
        match repo id with
        | some ln =>
          let tr' := tr ++ (if !title.isEmpty || truthy url then [RestoreAction.update id] else [])
          if ln.parentId ≠ parent then tr' ++ [RestoreAction.move id parent index] else tr'
        | none => tr ++ [RestoreAction.create parent title url index]
      restoreNodes repo children (some id) m1 tr1

def restoreNodes (repo : String → Option LiveInfo) :
    List BNode → Option String → List (String × Bool) → List RestoreAction →
      List (String × Bool) × List RestoreAction
  | [], _, m, tr => (m, tr)
  | n :: rest, parent, m, tr =>
    let r := restoreNode repo n parent m tr
    restoreNodes repo rest parent r.1 r.2

end

/-- One step of the final removal loop over the marks map. -/
def removalStep (tr : List RestoreAction) (kv : String × Bool) : List RestoreAction :=
  if kv.2 then
    (if reservedIds.contains kv.1 then tr else tr ++ [RestoreAction.remove kv.1])
  else tr

/-- `restoreSnapshot` acting on `snapshot.tree[0]` (an empty captured tree
makes the restore fail with no mutation, as the thrown access is caught). -/
def restoreSnapshot (repo : String → Option LiveInfo) (live : List BNode)
    (snapTree : List BNode) : Bool × List RestoreAction :=
  match snapTree with
  | [] => (false, [])
  | t0 :: _ =>
    let r := restoreNode repo t0 none (mapAllBookmarks live) []
    (true, r.1.foldl removalStep r.2)

mutual

/-- The snapshot-tree ids whose marks get cleared during the restore walk. -/
def visitIds : BNode → List String
  | .mk id _ _ _ children =>
    if id = "0" ∨ (id = "1" ∨ id = "2" ∨ id = "3") then visitIdsList children
    else id :: visitIdsList children

def visitIdsList : List BNode → List String
  | [] => []
  | n :: rest => visitIds n ++ visitIdsList rest

end

mutual

/-- All ids appearing in a snapshot subtree. -/
def bnodeIds : BNode → List String
  | .mk id _ _ _ children => id :: bnodeIdsList children

def bnodeIdsList : List BNode → List String
  | [] => []
  | n :: rest => bnodeIds n ++ bnodeIdsList rest

end
theorem contains_reserved_false {id : String}
    (h : ¬(id = "0" ∨ (id = "1" ∨ id = "2" ∨ id = "3"))) :
    reservedIds.contains id = false := by
  by_contra hc
  simp only [Bool.not_eq_false] at hc
  have hm := List.elem_iff.mp hc
  simp only [reservedIds, List.mem_cons, List.mem_singleton, List.not_mem_nil, or_false] at hm
  tauto

theorem markVisited_get_other (m : List (String × Bool)) (x id : String) (h : x ≠ id) :
    jsMapGet (markVisited m x) id = jsMapGet m id := by
  unfold markVisited
  cases hg : jsMapGet m x with
  | none => rfl
  | some v => rw [jsMapGet_set]; simp [h]

mutual

theorem visitIds_subset (n : BNode) : ∀ id ∈ visitIds n, id ∈ bnodeIds n := by
  cases n with
  | mk i title url idx children =>
    intro id hid
    simp only [visitIds] at hid
    simp only [bnodeIds, List.mem_cons]
    by_cases hres : i = "0" ∨ (i = "1" ∨ i = "2" ∨ i = "3")
    · rw [if_pos hres] at hid
      exact Or.inr (visitIdsList_subset children id hid)
    · rw [if_neg hres] at hid
      rcases List.mem_cons.mp hid with h | h
      · exact Or.inl h
      · exact Or.inr (visitIdsList_subset children id h)

theorem visitIdsList_subset (ns : List BNode) : ∀ id ∈ visitIdsList ns, id ∈ bnodeIdsList ns := by
  cases ns with
  | nil => intro id hid; simp [visitIdsList] at hid
  | cons n rest =>
    intro id hid
    simp only [visitIdsList, List.mem_append] at hid
    simp only [bnodeIdsList, List.mem_append]
    rcases hid with h | h
    · exact Or.inl (visitIds_subset n id h)
    · exact Or.inr (visitIdsList_subset rest id h)

end

mutual

theorem restoreNode_marks_other (repo : String → Option LiveInfo) (n : BNode)
    (parent : Option String) (m : List (String × Bool)) (tr : List RestoreAction)
    (id : String) (hid : id ∉ visitIds n) :
    jsMapGet (restoreNode repo n parent m tr).1 id = jsMapGet m id := by
  cases n with
  | mk i title url idx children =>
    simp only [visitIds] at hid
    simp only [restoreNode]
    by_cases h0 : i = "0"
    · rw [if_pos h0]
      rw [if_pos (Or.inl h0)] at hid
      exact restoreNodes_marks_other repo children none m tr id hid
    · rw [if_neg h0]
      by_cases h123 : i = "1" ∨ i = "2" ∨ i = "3"
      · rw [if_pos h123]
        rw [if_pos (Or.inr h123)] at hid
        exact restoreNodes_marks_other repo children (some i) m tr id hid
      · rw [if_neg h123]
        rw [if_neg (by tauto)] at hid
        have hne : i ≠ id := fun hc => hid (hc ▸ List.mem_cons_self _ _)
        have hrest : id ∉ visitIdsList children := fun hc => hid (List.mem_cons_of_mem _ hc)
        rw [restoreNodes_marks_other repo children (some i) _ _ id hrest]
        exact markVisited_get_other m i id hne

theorem restoreNodes_marks_other (repo : String → Option LiveInfo) (ns : List BNode)
    (parent : Option String) (m : List (String × Bool)) (tr : List RestoreAction)
    (id : String) (hid : id ∉ visitIdsList ns) :
    jsMapGet (restoreNodes repo ns parent m tr).1 id = jsMapGet m id := by
  cases ns with
  | nil => rfl
  | cons n rest =>
    simp only [visitIdsList, List.mem_append] at hid
    simp only [restoreNodes]
    rw [restoreNodes_marks_other repo rest parent _ _ id (fun hc => hid (Or.inr hc))]
    exact restoreNode_marks_other repo n parent m tr id (fun hc => hid (Or.inl hc))

end

mutual

theorem restoreNode_trace_reserved (repo : String → Option LiveInfo) (n : BNode)
    (parent : Option String) (m : List (String × Bool)) (tr : List RestoreAction)
    (h : ∀ a ∈ tr, actionTargetsReserved a = false) :
    ∀ a ∈ (restoreNode repo n parent m tr).2, actionTargetsReserved a = false := by
  cases n with
  | mk i title url idx children =>
    simp only [restoreNode]
    by_cases h0 : i = "0"
    · rw [if_pos h0]
      exact restoreNodes_trace_reserved repo children none m tr h
    · rw [if_neg h0]
      by_cases h123 : i = "1" ∨ i = "2" ∨ i = "3"
      · rw [if_pos h123]
        exact restoreNodes_trace_reserved repo children (some i) m tr h
      · rw [if_neg h123]
        apply restoreNodes_trace_reserved
        have hres : reservedIds.contains i = false :=
          contains_reserved_false (by tauto)
        cases hr : repo i with
        | some ln =>
          dsimp only
          by_cases hpar : ln.parentId ≠ parent
          · rw [if_pos hpar]
            intro a ha
            rcases List.mem_append.mp ha with ha | ha
            · rcases List.mem_append.mp ha with ha | ha
              · exact h a ha
              · by_cases hu : !title.isEmpty || truthy url
                · simp only [hu, if_pos, List.mem_singleton] at ha
                  subst ha
                  simpa [actionTargetsReserved] using hres
                · simp only [Bool.not_eq_true] at hu
                  simp [hu] at ha
            · simp only [List.mem_singleton] at ha
              subst ha
              simpa [actionTargetsReserved] using hres
          · rw [if_neg hpar]
            intro a ha
            rcases List.mem_append.mp ha with ha | ha
            · exact h a ha
            · by_cases hu : !title.isEmpty || truthy url
              · simp only [hu, if_pos, List.mem_singleton] at ha
                subst ha
                simpa [actionTargetsReserved] using hres
              · simp only [Bool.not_eq_true] at hu
                simp [hu] at ha
        | none =>
          dsimp only
          intro a ha
          rcases List.mem_append.mp ha with ha | ha
          · exact h a ha
          · simp only [List.mem_singleton] at ha
            subst ha
            simp [actionTargetsReserved]

theorem restoreNodes_trace_reserved (repo : String → Option LiveInfo) (ns : List BNode)
    (parent : Option String) (m : List (String × Bool)) (tr : List RestoreAction)
    (h : ∀ a ∈ tr, actionTargetsReserved a = false) :
    ∀ a ∈ (restoreNodes repo ns parent m tr).2, actionTargetsReserved a = false := by
  cases ns with
  | nil => exact h
  | cons n rest =>
    simp only [restoreNodes]
    exact restoreNodes_trace_reserved repo rest parent _ _
      (restoreNode_trace_reserved repo n parent m tr h)

end

theorem jsMapSet_all_true (m : List (String × Bool)) (k : String)
    (hm : ∀ kv ∈ m, kv.2 = true) : ∀ kv ∈ jsMapSet m k true, kv.2 = true := by
  induction m with
  | nil => intro kv hkv; simp [jsMapSet] at hkv; rw [hkv]
  | cons kv0 rest ih =>
    intro kv hkv
    simp only [jsMapSet] at hkv
    by_cases h0 : kv0.1 = k
    · rw [if_pos (by rw [← h0])] at hkv
      rcases List.mem_cons.mp hkv with h | h
      · rw [h]
      · exact hm _ (List.mem_cons_of_mem _ h)
    · rw [if_neg (by rw [show kv0 = (kv0.1, kv0.2) from rfl]; simpa using h0)] at hkv
      rcases List.mem_cons.mp hkv with h | h
      · rw [h]; exact hm kv0 (List.mem_cons_self _ _)
      · exact ih (fun x hx => hm x (List.mem_cons_of_mem _ hx)) kv h

mutual

theorem mapAllBookmarksNode_all_true (n : BNode) (m : List (String × Bool))
    (hm : ∀ kv ∈ m, kv.2 = true) : ∀ kv ∈ mapAllBookmarksNode n m, kv.2 = true := by
  cases n with
  | mk i title url idx children =>
    simp only [mapAllBookmarksNode]
    apply mapAllBookmarksList_all_true
    by_cases h0 : i = "0"
    · rw [if_pos h0]; exact hm
    · rw [if_neg h0]; exact jsMapSet_all_true m i hm

theorem mapAllBookmarksList_all_true (ns : List BNode) (m : List (String × Bool))
    (hm : ∀ kv ∈ m, kv.2 = true) : ∀ kv ∈ mapAllBookmarksList ns m, kv.2 = true := by
  cases ns with
  | nil => exact hm
  | cons n rest =>
    simp only [mapAllBookmarksList]
    exact mapAllBookmarksList_all_true rest _ (mapAllBookmarksNode_all_true n m hm)

end

theorem jsMapGet_of_mem_fst {β : Type} (m : List (String × β)) (id : String)
    (h : id ∈ m.map (fun kv => kv.1)) : ∃ v, jsMapGet m id = some v ∧ (id, v) ∈ m := by
  induction m with
  | nil => simp at h
  | cons kv rest ih =>
    by_cases h0 : kv.1 = id
    · refine ⟨kv.2, ?_, ?_⟩
      · simp [jsMapGet, List.find?, h0]
      · rw [← h0]; exact List.mem_cons_self _ _
    · have h' : id = kv.1 ∨ id ∈ rest.map (fun kv => kv.1) := by simpa using h
      have hrest : id ∈ rest.map (fun kv => kv.1) := by
        rcases h' with hh | hh
        · exact absurd hh.symm h0
        · exact hh
      obtain ⟨v, hv1, hv2⟩ := ih hrest
      refine ⟨v, ?_, List.mem_cons_of_mem _ hv2⟩
      unfold jsMapGet at hv1 ⊢
      rw [List.find?_cons_of_neg]
      · exact hv1
      · simpa using h0

theorem mem_of_jsMapGet {β : Type} (m : List (String × β)) (id : String) (v : β)
    (h : jsMapGet m id = some v) : (id, v) ∈ m := by
  unfold jsMapGet at h
  cases hf : m.find? (fun kv => kv.1 = id) with
  | none => rw [hf] at h; simp at h
  | some kv =>
    rw [hf] at h
    simp only [Option.map] at h
    injection h with h
    have hmem := List.mem_of_find?_eq_some hf
    have hprop := List.find?_some hf
    simp only [decide_eq_true_eq] at hprop
    have : kv = (id, v) := by
      rw [show kv = (kv.1, kv.2) from rfl, hprop, h]
    rw [← this]
    exact hmem

theorem removal_fold_mono (M : List (String × Bool)) :
    ∀ (tr : List RestoreAction) (a : RestoreAction), a ∈ tr → a ∈ M.foldl removalStep tr := by
  induction M with
  | nil => intro tr a h; exact h
  | cons kv rest ih =>
    intro tr a h
    apply ih
    unfold removalStep
    by_cases h2 : kv.2
    · rw [if_pos h2]
      by_cases hres : reservedIds.contains kv.1
      · rw [if_pos hres]; exact h
      · rw [if_neg hres]; exact List.mem_append_left _ h
    · rw [if_neg h2]; exact h

theorem removal_fold_mem (M : List (String × Bool)) :
    ∀ (tr : List RestoreAction) (id : String), (id, true) ∈ M →
      reservedIds.contains id = false →
      RestoreAction.remove id ∈ M.foldl removalStep tr := by
  induction M with
  | nil => intro tr id h; simp at h
  | cons kv rest ih =>
    intro tr id hmem hres
    rcases List.mem_cons.mp hmem with h | h
    · subst h
      rw [List.foldl_cons]
      apply removal_fold_mono
      show RestoreAction.remove id ∈ removalStep tr (id, true)
      unfold removalStep
      have hnm : id ∉ reservedIds := by
        intro hc
        have hc' : reservedIds.contains id = true := List.elem_iff.mpr hc
        rw [hc'] at hres
        exact Bool.noConfusion hres
      simp [hnm]
    · rw [List.foldl_cons]
      exact ih _ id h hres

theorem removal_fold_reserved (M : List (String × Bool)) :
    ∀ (tr : List RestoreAction), (∀ a ∈ tr, actionTargetsReserved a = false) →
      ∀ a ∈ M.foldl removalStep tr, actionTargetsReserved a = false := by
  induction M with
  | nil => intro tr h; exact h
  | cons kv rest ih =>
    intro tr h
    apply ih
    intro a ha
    unfold removalStep at ha
    by_cases h2 : kv.2
    · rw [if_pos h2] at ha
      by_cases hres : reservedIds.contains kv.1
      · rw [if_pos hres] at ha; exact h a ha
      · rw [if_neg hres] at ha
        rcases List.mem_append.mp ha with hh | hh
        · exact h a hh
        · rw [List.mem_singleton.mp hh]
          simpa [actionTargetsReserved] using hres
    · rw [if_neg h2] at ha; exact h a ha

/-- C8: restoring a snapshot issues a remove for every live node whose id
does not appear in the snapshot's captured tree (reserved folders excepted),
and no issued repository call removes, moves or updates one of the
platform's reserved top-level folders — they serve only as fixed containers
for re-parented children. -/
theorem restoreSnapshot_removes_only_unsnapshotted (repo : String → Option LiveInfo)
    (live : List BNode) (t0 : BNode) (rest : List BNode) :
    (∀ id, id ∈ (mapAllBookmarks live).map (fun kv => kv.1) → id ∉ bnodeIds t0 →
        reservedIds.contains id = false →
        RestoreAction.remove id ∈ (restoreSnapshot repo live (t0 :: rest)).2)
    ∧ (∀ a ∈ (restoreSnapshot repo live (t0 :: rest)).2,
        actionTargetsReserved a = false) := by
  have hshow : (restoreSnapshot repo live (t0 :: rest)).2
      = (restoreNode repo t0 none (mapAllBookmarks live) []).1.foldl removalStep
          (restoreNode repo t0 none (mapAllBookmarks live) []).2 := rfl
  constructor
  · intro id hmem hnotin hres
    have hall : ∀ kv ∈ mapAllBookmarks live, kv.2 = true :=
      mapAllBookmarksList_all_true live [] (by intro kv h; simp at h)
    obtain ⟨v, hget, hv⟩ := jsMapGet_of_mem_fst _ id hmem
    have hvt : v = true := hall _ hv
    subst hvt
    have hnotvisit : id ∉ visitIds t0 := fun hc => hnotin (visitIds_subset t0 id hc)
    have hget2 : jsMapGet (restoreNode repo t0 none (mapAllBookmarks live) []).1 id
        = some true := by
      rw [restoreNode_marks_other repo t0 none _ [] id hnotvisit]
      exact hget
    have hmem2 := mem_of_jsMapGet _ _ _ hget2
    rw [hshow]
    exact removal_fold_mem _ _ id hmem2 hres
  · intro a ha
    rw [hshow] at ha
    exact removal_fold_reserved _ _
      (restoreNode_trace_reserved repo t0 none _ [] (by intro a h; simp at h)) a ha

/-- The C8 witness oracle: no snapshot node still exists live. -/
def c8repo : String → Option LiveInfo := fun _ => none

/-- C8 witness live tree: bookmark `9` lives under the bookmarks bar. -/
def c8live : List BNode :=
  [BNode.mk "0" "" none none
    [BNode.mk "1" "Bar" none none
      [BNode.mk "9" "Old" (some "http://o") none []]]]

/-- C8 witness snapshot: captured before bookmark `9` existed. -/
def c8snap : BNode :=
  BNode.mk "0" "" none none [BNode.mk "1" "Bar" none none []]

/-- Witness for C8: restoring the snapshot issues a remove for the live
bookmark `9` that the snapshot does not contain, and that remove does not
target a reserved folder. -/
theorem restoreSnapshot_removes_witness :
    RestoreAction.remove "9" ∈ (restoreSnapshot c8repo c8live [c8snap]).2
    ∧ actionTargetsReserved (RestoreAction.remove "9") = false := by
  have h := restoreSnapshot_removes_only_unsnapshotted c8repo c8live c8snap []
  have h1 := h.1 "9" (by decide) (by decide) (by decide)
  exact ⟨h1, h.2 _ h1⟩

end BookmarkMan
